import Mathlib

/-!
# Verification of the hyperspell-openclaw Memory Network subsystem

A shallow embedding, over `List Char` strings, of the Memory Network pipeline:
the processing ledger (`src/graph/state.ts`, `NetworkStateManager`), the memory
scanner (`scanMemories`), the entity writer (`writeEntity`, `slugify`), and the
markdown sync pusher (`src/sync/markdown.ts`: `parseFrontmatter`,
`serializeFrontmatter`, `readMarkdownFile`, `updateFrontmatterId`,
`syncMarkdownFile`, `getMemoryFiles`, `syncAllMemoryFiles`).

JavaScript strings are modelled as `List Char`.  JavaScript objects used as
string-keyed dictionaries are modelled as insertion-ordered association lists
with unique keys (`upsert` models `obj[k] = v`).  The remote Hyperspell client
is out of scope of the repository (it wraps a network API); its calls are
modelled as explicit function parameters ("oracles") wherever an operation of
this subsystem awaits one.
-/

set_option maxHeartbeats 1000000
set_option maxRecDepth 4000

namespace Openclaw

abbrev Str := List Char

/-- `s.startsWith pat` over `List Char`: `pat` begins `s`. -/
def hasPre : Str → Str → Bool
  | [], _ => true
  | _ :: _, [] => false
  | p :: ps, c :: cs => p = c && hasPre ps cs

@[simp] theorem hasPre_nil (s : Str) : hasPre [] s = true := by cases s <;> rfl

@[simp] theorem hasPre_cons (p : Char) (ps : Str) (c : Char) (cs : Str) :
    hasPre (p :: ps) (c :: cs) = (p = c && hasPre ps cs) := rfl

@[simp] theorem hasPre_cons_nil (p : Char) (ps : Str) : hasPre (p :: ps) [] = false := rfl

/-- JS `String.prototype.split("\n")`. -/
def splitOnNl : Str → List Str
  | [] => [[]]
  | c :: r =>
    if c = '\n' then [] :: splitOnNl r
    else
      match splitOnNl r with
      | h :: t => (c :: h) :: t
      | [] => [[c]]

theorem splitOnNl_ne_nil (s : Str) : splitOnNl s ≠ [] := by
  cases s with
  | nil => simp [splitOnNl]
  | cons c r =>
    simp only [splitOnNl]
    split
    · simp
    · split <;> simp_all

/-- JS `Array.prototype.join("\n")`. -/
def joinNl : List Str → Str
  | [] => []
  | [l] => l
  | l :: ls => l ++ '\n' :: joinNl ls

@[simp] theorem joinNl_nil : joinNl [] = [] := rfl

@[simp] theorem joinNl_single (l : Str) : joinNl [l] = l := rfl

theorem joinNl_cons (l : Str) (l' : Str) (ls : List Str) :
    joinNl (l :: l' :: ls) = l ++ '\n' :: joinNl (l' :: ls) := rfl

/-- Splitting an `'\n'`-free line back out of a join. -/
theorem splitOnNl_join (ls : List Str) (hne : ls ≠ [])
    (hnl : ∀ l ∈ ls, '\n' ∉ l) : splitOnNl (joinNl ls) = ls := by
  induction ls with
  | nil => exact absurd rfl hne
  | cons l ls ih =>
    cases ls with
    | nil =>
      simp only [joinNl_single]
      have hl : '\n' ∉ l := hnl l (by simp)
      clear hne hnl ih
      induction l with
      | nil => simp [splitOnNl]
      | cons c r ihc =>
        have hc : c ≠ '\n' := by
          intro h; exact hl (by simp [h])
        have hr : '\n' ∉ r := by
          intro h; exact hl (by simp [h])
        simp only [splitOnNl, if_neg hc, ihc hr]
    | cons l' ls' =>
      rw [joinNl_cons]
      have hl : '\n' ∉ l := hnl l (by simp)
      have hrest : splitOnNl (joinNl (l' :: ls')) = l' :: ls' :=
        ih (by simp) (fun x hx => hnl x (by simp [hx]))
      clear hne hnl ih
      induction l with
      | nil =>
        simpa [splitOnNl] using hrest
      | cons c r ihc =>
        have hc : c ≠ '\n' := by
          intro h; exact hl (by simp [h])
        have hr : '\n' ∉ r := by
          intro h; exact hl (by simp [h])
        have hstep := ihc hr
        simp only [List.cons_append, splitOnNl, if_neg hc]
        simp only [List.append_eq] at hstep ⊢
        rw [hstep]

/-- ASCII whitespace test used by our model of JS `String.prototype.trim`. -/
def isWs (c : Char) : Bool := c = ' ' || c = '\t' || c = '\n' || c = '\r'

/-- Model of JS `String.prototype.trim` (whitespace stripped from both ends). -/
def trimStr (s : Str) : Str :=
  ((s.dropWhile isWs).reverse.dropWhile isWs).reverse

theorem dropWhile_fixed {p : Char → Bool} (s : Str)
    (h : ∀ c ∈ s, p c = false) : s.dropWhile p = s := by
  cases s with
  | nil => rfl
  | cons c r => simp [List.dropWhile, h c (by simp)]

/-- Trimming fixes a string with no whitespace at either end (in particular a
whitespace-free string). -/
theorem trimStr_of_noWs (s : Str) (h : ∀ c ∈ s, isWs c = false) :
    trimStr s = s := by
  unfold trimStr
  rw [dropWhile_fixed s h, dropWhile_fixed s.reverse (fun c hc => h c (by simpa using hc)),
    List.reverse_reverse]

theorem mem_dropWhile {p : Char → Bool} {c : Char} {s : Str}
    (h : c ∈ s.dropWhile p) : c ∈ s := by
  induction s with
  | nil => simp at h
  | cons a r ih =>
    by_cases hp : p a
    · rw [List.dropWhile_cons, if_pos hp] at h
      exact List.mem_cons_of_mem _ (ih h)
    · rw [List.dropWhile_cons, if_neg hp] at h
      exact h

theorem mem_trimStr {c : Char} {s : Str} (h : c ∈ trimStr s) : c ∈ s := by
  unfold trimStr at h
  rw [List.mem_reverse] at h
  have h2 := mem_dropWhile h
  rw [List.mem_reverse] at h2
  exact mem_dropWhile h2

/-- The head of a `dropWhile p` result does not satisfy `p`. -/
theorem dropWhile_head_not (p : Char → Bool) (t : Str) (c : Char)
    (h : (t.dropWhile p).head? = some c) : p c = false := by
  induction t with
  | nil => simp at h
  | cons a r ih =>
    by_cases hp : p a
    · rw [List.dropWhile_cons, if_pos hp] at h
      exact ih h
    · rw [List.dropWhile_cons, if_neg hp] at h
      simp only [List.head?_cons, Option.some.injEq] at h
      subst h
      simpa using hp

theorem dropWhile_append_single (p : Char → Bool) (xs : Str) (a : Char)
    (h : p a = false) : (xs ++ [a]).dropWhile p = xs.dropWhile p ++ [a] := by
  induction xs with
  | nil => simp [List.dropWhile_cons, h]
  | cons b bs ih => by_cases hb : p b <;> simp [List.dropWhile_cons, hb, ih]

/-- The characters a trim removes are only edge whitespace; the result has no
leading or trailing whitespace, hence is itself trim-fixed. -/
theorem trimStr_idem (s : Str) : trimStr (trimStr s) = trimStr s := by
  unfold trimStr
  generalize hd : (((s.dropWhile isWs).reverse.dropWhile isWs)).reverse = t
  have hHead : ∀ c, t.head? = some c → isWs c = false := by
    intro c hc
    subst hd
    rcases h : (s.dropWhile isWs) with _ | ⟨a, r⟩
    · simp [h] at hc
    · have ha : isWs a = false := dropWhile_head_not isWs s a (by rw [h]; simp)
      rw [h] at hc
      have hsplit : (a :: r).reverse.dropWhile isWs = (r.reverse.dropWhile isWs) ++ [a] := by
        rw [List.reverse_cons]
        exact dropWhile_append_single isWs r.reverse a ha
      rw [hsplit] at hc
      simp only [List.reverse_append, List.reverse_cons, List.reverse_nil,
        List.nil_append, List.singleton_append, List.head?_cons, Option.some.injEq] at hc
      subst hc; exact ha
  have hLast : ∀ c, t.reverse.head? = some c → isWs c = false := by
    intro c hc
    subst hd
    rw [List.reverse_reverse] at hc
    exact dropWhile_head_not isWs _ c hc
  have h3 : t.dropWhile isWs = t := by
    cases ht : t with
    | nil => rfl
    | cons a r =>
      have := hHead a (by rw [ht]; simp)
      rw [List.dropWhile_cons, if_neg (by simp [this])]
  rw [h3]
  have h4 : t.reverse.dropWhile isWs = t.reverse := by
    cases ht : t.reverse with
    | nil => rfl
    | cons a r =>
      have := hLast a (by rw [ht]; simp)
      rw [List.dropWhile_cons, if_neg (by simp [this])]
  rw [h4, List.reverse_reverse]

/-! ## Insertion-ordered string-keyed dictionaries

JavaScript objects used as dictionaries preserve (string-)key insertion order;
`obj[k] = v` updates in place when `k` is present and appends otherwise. -/

/-- Lookup in an insertion-ordered association list. -/
def alookup {α : Type} : List (Str × α) → Str → Option α
  | [], _ => none
  | (k, v) :: r, key => if k = key then some v else alookup r key

@[simp] theorem alookup_nil {α : Type} (key : Str) : alookup ([] : List (Str × α)) key = none := rfl

theorem alookup_cons {α : Type} (k : Str) (v : α) (r : List (Str × α)) (key : Str) :
    alookup ((k, v) :: r) key = if k = key then some v else alookup r key := rfl

/-- JS `obj[k] = v`. -/
def upsert {α : Type} : List (Str × α) → Str → α → List (Str × α)
  | [], k, v => [(k, v)]
  | (k', v') :: r, k, v => if k' = k then (k, v) :: r else (k', v') :: upsert r k v

theorem alookup_upsert {α : Type} (m : List (Str × α)) (k : Str) (v : α) (key : Str) :
    alookup (upsert m k v) key = if k = key then some v else alookup m key := by
  induction m with
  | nil => simp [upsert, alookup_cons]
  | cons p r ih =>
    obtain ⟨k', v'⟩ := p
    by_cases h : k' = k
    · subst h
      by_cases h2 : k' = key <;> simp [upsert, alookup_cons, h2]
    · by_cases h2 : k' = key
      · subst h2
        have hne : k ≠ k' := fun hk => h hk.symm
        simp [upsert, h, alookup_cons, hne]
      · simp [upsert, h, alookup_cons, h2, ih]

theorem upsert_keys_of_present {α : Type} (m : List (Str × α)) (k : Str) (v : α)
    (h : (alookup m k).isSome) : (upsert m k v).map Prod.fst = m.map Prod.fst := by
  induction m with
  | nil => simp [alookup] at h
  | cons p r ih =>
    obtain ⟨k', v'⟩ := p
    by_cases hk : k' = k
    · simp [upsert, hk]
    · rw [alookup_cons, if_neg hk] at h
      simp [upsert, hk, ih h]

theorem upsert_keys_of_absent {α : Type} (m : List (Str × α)) (k : Str) (v : α)
    (h : alookup m k = none) : (upsert m k v).map Prod.fst = m.map Prod.fst ++ [k] := by
  induction m with
  | nil => simp [upsert]
  | cons p r ih =>
    obtain ⟨k', v'⟩ := p
    by_cases hk : k' = k
    · rw [alookup_cons, if_pos hk] at h
      simp at h
    · rw [alookup_cons, if_neg hk] at h
      simp [upsert, hk, ih h]

theorem alookup_eq_none_of_not_memKeys {α : Type} (m : List (Str × α)) (key : Str)
    (h : key ∉ m.map Prod.fst) : alookup m key = none := by
  induction m with
  | nil => rfl
  | cons p r ih =>
    obtain ⟨k', v'⟩ := p
    simp only [List.map_cons, List.mem_cons] at h
    push_neg at h
    rw [alookup_cons, if_neg (fun hk => h.1 hk.symm)]
    exact ih h.2

theorem alookup_isSome_of_memKeys {α : Type} (m : List (Str × α)) (key : Str)
    (h : key ∈ m.map Prod.fst) : (alookup m key).isSome := by
  induction m with
  | nil => simp at h
  | cons p r ih =>
    obtain ⟨k', v'⟩ := p
    by_cases hk : k' = key
    · simp [alookup_cons, hk]
    · simp only [List.map_cons, List.mem_cons] at h
      rcases h with h | h
      · exact absurd h.symm hk
      · simpa [alookup_cons, hk] using ih h

theorem upsert_keys_nodup {α : Type} (m : List (Str × α)) (k : Str) (v : α)
    (h : (m.map Prod.fst).Nodup) : ((upsert m k v).map Prod.fst).Nodup := by
  rcases hm : alookup m k with _ | w
  · rw [upsert_keys_of_absent m k v hm]
    have hk : k ∉ m.map Prod.fst := by
      intro hmem
      have := alookup_isSome_of_memKeys m k hmem
      rw [hm] at this
      simp at this
    simp [List.nodup_append, h, hk]
  · rw [upsert_keys_of_present m k v (by rw [hm]; rfl)]
    exact h

theorem alookup_append {α : Type} (m₁ m₂ : List (Str × α)) (key : Str) :
    alookup (m₁ ++ m₂) key =
      match alookup m₁ key with
      | some v => some v
      | none => alookup m₂ key := by
  induction m₁ with
  | nil => simp [alookup]
  | cons p r ih =>
    obtain ⟨k', v'⟩ := p
    by_cases hk : k' = key <;> simp [alookup_cons, hk, ih]

/-- JS `[...new Set(xs)]`: deduplicate, keeping first occurrences in order. -/
def jsDedupGo {α : Type} [DecidableEq α] (seen : List α) : List α → List α
  | [] => []
  | a :: l => if a ∈ seen then jsDedupGo seen l else a :: jsDedupGo (a :: seen) l

def jsDedup {α : Type} [DecidableEq α] (l : List α) : List α := jsDedupGo [] l

theorem mem_jsDedupGo {α : Type} [DecidableEq α] (seen l : List α) (x : α) :
    x ∈ jsDedupGo seen l ↔ x ∈ l ∧ x ∉ seen := by
  induction l generalizing seen with
  | nil => simp [jsDedupGo]
  | cons a l ih =>
    by_cases ha : a ∈ seen
    · rw [jsDedupGo, if_pos ha, ih]
      constructor
      · rintro ⟨h1, h2⟩
        exact ⟨List.mem_cons_of_mem _ h1, h2⟩
      · rintro ⟨h1, h2⟩
        rcases List.mem_cons.mp h1 with h | h
        · subst h; exact absurd ha h2
        · exact ⟨h, h2⟩
    · rw [jsDedupGo, if_neg ha]
      simp only [List.mem_cons, ih]
      constructor
      · rintro (h | ⟨h1, h2⟩)
        · subst h; exact ⟨Or.inl rfl, ha⟩
        · push_neg at h2
          exact ⟨Or.inr h1, h2.2⟩
      · rintro ⟨h | h, h2⟩
        · subst h; exact Or.inl rfl
        · by_cases hx : x = a
          · exact Or.inl hx
          · refine Or.inr ⟨h, ?_⟩
            push_neg
            exact ⟨hx, h2⟩

theorem mem_jsDedup {α : Type} [DecidableEq α] (l : List α) (x : α) :
    x ∈ jsDedup l ↔ x ∈ l := by
  rw [jsDedup, mem_jsDedupGo]
  simp

theorem jsDedupGo_nodup {α : Type} [DecidableEq α] (seen l : List α) :
    (jsDedupGo seen l).Nodup := by
  induction l generalizing seen with
  | nil => simp [jsDedupGo]
  | cons a l ih =>
    by_cases ha : a ∈ seen
    · rw [jsDedupGo, if_pos ha]; exact ih seen
    · rw [jsDedupGo, if_neg ha]
      refine List.nodup_cons.mpr ⟨?_, ih (a :: seen)⟩
      rw [mem_jsDedupGo]
      simp

theorem jsDedup_nodup {α : Type} [DecidableEq α] (l : List α) : (jsDedup l).Nodup :=
  jsDedupGo_nodup [] l

/-! ## `slugify` (src/graph/state.ts)

```ts
export function slugify(name: string): string {
  return name
    .toLowerCase()
    .trim()
    .replace(/[^a-z0-9]+/g, "-")
    .replace(/^-|-$/g, "")
}
```

`toLowerCase` is modelled on its ASCII action (every non-ASCII letter, being
outside `[a-z0-9]` both before and after lowercasing, is collapsed to `-` by
the next step either way).  `replace(/[^a-z0-9]+/g, "-")` collapses each
maximal run of non-alphanumerics to a single `-`; `replace(/^-|-$/g, "")`
removes one leading and one trailing hyphen (after collapsing, at most one of
each can exist). -/

/-- ASCII action of `toLowerCase`: `A`–`Z` (codes 65–90) map down by 32. -/
def asciiLower (c : Char) : Char :=
  if 65 ≤ c.toNat ∧ c.toNat ≤ 90 then Char.ofNat (c.toNat + 32) else c

/-- Character class `[a-z0-9]` (codes 97–122 and 48–57). -/
def isAlnumLower (c : Char) : Bool :=
  (97 ≤ c.toNat && c.toNat ≤ 122) || (48 ≤ c.toNat && c.toNat ≤ 57)

/-- `replace(/[^a-z0-9]+/g, "-")`: the `inRun` flag records whether we are in
the middle of a non-alphanumeric run whose `-` has already been emitted. -/
def collapseGo (inRun : Bool) : Str → Str
  | [] => []
  | c :: r =>
    if isAlnumLower c then c :: collapseGo false r
    else if inRun then collapseGo true r
    else '-' :: collapseGo true r

/-- Drop one leading `-` (the `^-` alternative of `/^-|-$/g`). -/
def stripLead (s : Str) : Str := if s.head? = some '-' then s.tail else s

/-- Drop one trailing `-` (the `-$` alternative of `/^-|-$/g`). -/
def stripTrail (s : Str) : Str :=
  if s.reverse.head? = some '-' then s.reverse.tail.reverse else s

/-- `replace(/^-|-$/g, "")`: drop one leading and one trailing `-`. -/
def stripEdgeDashes (s : Str) : Str := stripTrail (stripLead s)

def slugify (name : Str) : Str :=
  stripEdgeDashes (collapseGo false (trimStr (name.map asciiLower)))

/-- Characters of a slug: lowercase alphanumerics and hyphens. -/
def isSlugChar (c : Char) : Prop := isAlnumLower c = true ∨ c = '-'

/-- No two adjacent hyphens. -/
def noDD (s : Str) : Prop := List.Chain' (fun a b => ¬(a = '-' ∧ b = '-')) s

/-- What `slugify` guarantees of its output, and exactly what makes a string a
fixed point of `slugify`. -/
def slugOk (s : Str) : Prop :=
  (∀ c ∈ s, isSlugChar c) ∧ noDD s ∧ s.head? ≠ some '-' ∧ s.reverse.head? ≠ some '-'

theorem collapseGo_mem (b : Bool) (s : Str) (c : Char) (h : c ∈ collapseGo b s) :
    isSlugChar c := by
  induction s generalizing b with
  | nil => simp [collapseGo] at h
  | cons a r ih =>
    by_cases ha : isAlnumLower a
    · rw [collapseGo, if_pos ha] at h
      rcases List.mem_cons.mp h with h | h
      · subst h; exact Or.inl ha
      · exact ih false h
    · rw [collapseGo, if_neg ha] at h
      cases b with
      | true => exact ih true (by simpa using h)
      | false =>
        simp only [Bool.false_eq_true, if_false] at h
        rcases List.mem_cons.mp h with h | h
        · subst h; exact Or.inr rfl
        · exact ih true h

theorem collapseGo_true_head (s : Str) (c : Char)
    (h : (collapseGo true s).head? = some c) : isAlnumLower c = true := by
  induction s with
  | nil => simp [collapseGo] at h
  | cons a r ih =>
    by_cases ha : isAlnumLower a
    · rw [collapseGo, if_pos ha] at h
      simp only [List.head?_cons, Option.some.injEq] at h
      subst h; exact ha
    · rw [collapseGo, if_neg ha, if_pos rfl] at h
      exact ih h

theorem collapseGo_noDD (b : Bool) (s : Str) : noDD (collapseGo b s) := by
  induction s generalizing b with
  | nil => simp [collapseGo, noDD]
  | cons a r ih =>
    by_cases ha : isAlnumLower a
    · rw [collapseGo, if_pos ha]
      rw [noDD, List.chain'_cons']
      refine ⟨?_, ih false⟩
      rintro y hy ⟨hadash, _⟩
      subst hadash
      simp [isAlnumLower] at ha
    · rw [collapseGo, if_neg ha]
      cases b with
      | true => simpa using ih true
      | false =>
        simp only [Bool.false_eq_true, if_false]
        rw [noDD, List.chain'_cons']
        refine ⟨?_, ih true⟩
        rintro y hy ⟨_, hydash⟩
        have := collapseGo_true_head r y hy
        subst hydash
        simp [isAlnumLower] at this

theorem noDD_tail {c : Char} {r : Str} (h : noDD (c :: r)) : noDD r :=
  (List.chain'_cons'.mp h).2

/-- Fixed-point property of the run-collapsing pass. -/
theorem collapseGo_fix (s : Str) (hc : ∀ c ∈ s, isSlugChar c) (hd : noDD s) :
    collapseGo false s = s ∧ (s.head? ≠ some '-' → collapseGo true s = s) := by
  induction s with
  | nil => simp [collapseGo]
  | cons a r ih =>
    have hr := ih (fun c hcm => hc c (List.mem_cons_of_mem _ hcm)) (noDD_tail hd)
    rcases hc a (by simp) with ha | ha
    · have heq : collapseGo false (a :: r) = a :: r := by
        rw [collapseGo, if_pos ha, hr.1]
      refine ⟨heq, fun _ => ?_⟩
      rw [collapseGo, if_pos ha, hr.1]
    · subst ha
      have hnotal : isAlnumLower '-' = false := by decide
      have hrhead : r.head? ≠ some '-' := by
        intro hh
        cases r with
        | nil => simp at hh
        | cons b rb =>
          simp only [List.head?_cons, Option.some.injEq] at hh
          subst hh
          exact (List.chain'_cons.mp hd).1 ⟨rfl, rfl⟩
      constructor
      · rw [collapseGo, if_neg (by simp [hnotal])]
        simp only [Bool.false_eq_true, if_false]
        rw [hr.2 hrhead]
      · intro hcontra
        simp at hcontra

theorem mem_stripLead {c : Char} {s : Str} (h : c ∈ stripLead s) : c ∈ s := by
  unfold stripLead at h
  split at h
  · exact List.mem_of_mem_tail h
  · exact h

theorem mem_stripTrail {c : Char} {s : Str} (h : c ∈ stripTrail s) : c ∈ s := by
  unfold stripTrail at h
  split at h
  · rw [List.mem_reverse] at h
    have := List.mem_of_mem_tail h
    rwa [List.mem_reverse] at this
  · exact h

theorem mem_stripEdgeDashes {c : Char} {s : Str} (h : c ∈ stripEdgeDashes s) : c ∈ s :=
  mem_stripLead (mem_stripTrail h)

theorem noDD_reverse {s : Str} (h : noDD s) : noDD s.reverse := by
  rw [noDD, List.chain'_reverse]
  refine List.Chain'.imp ?_ h
  intro a b hab hba
  exact hab ⟨hba.2, hba.1⟩

theorem noDD_head_tail {s : Str} (h : noDD s) (hh : s.head? = some '-') :
    s.tail.head? ≠ some '-' := by
  cases s with
  | nil => simp at hh
  | cons a r =>
    simp only [List.head?_cons, Option.some.injEq] at hh
    subst hh
    cases r with
    | nil => simp
    | cons b rb =>
      simp only [List.tail_cons, List.head?_cons]
      intro hb
      rw [Option.some.injEq] at hb
      exact (List.chain'_cons.mp h).1 ⟨rfl, hb⟩

theorem stripLead_head {s : Str} (h : noDD s) : (stripLead s).head? ≠ some '-' := by
  unfold stripLead
  split
  · exact noDD_head_tail h (by assumption)
  · assumption

theorem noDD_stripLead {s : Str} (h : noDD s) : noDD (stripLead s) := by
  unfold stripLead
  split
  · cases s with
    | nil => simpa using h
    | cons a r => exact noDD_tail h
  · exact h

theorem stripTrail_props {t : Str} (hd : noDD t) (hh : t.head? ≠ some '-') :
    (stripTrail t).head? ≠ some '-' ∧ (stripTrail t).reverse.head? ≠ some '-' ∧
      noDD (stripTrail t) := by
  unfold stripTrail
  split
  · rename_i hrev
    have hnoDDrev : noDD t.reverse := noDD_reverse hd
    have h1 : t.reverse.tail.head? ≠ some '-' := noDD_head_tail hnoDDrev hrev
    have h2 : noDD t.reverse.tail := by
      cases ht : t.reverse with
      | nil => simp [noDD]
      | cons a r =>
        rw [ht] at hnoDDrev
        exact noDD_tail hnoDDrev
    refine ⟨?_, by simpa using h1, by
      have := noDD_reverse h2
      simpa using this⟩
    -- t = y ++ ['-'] where y = t.reverse.tail.reverse; head of y = head of t if y ≠ []
    cases hy : t.reverse.tail.reverse with
    | nil => simp
    | cons c ys =>
      simp only [List.head?_cons, Ne, Option.some.injEq]
      intro hc
      subst hc
      -- then t ends with '-' after a body ending, and in fact begins with '-':
      -- t = ('-' :: ys) ++ ['-'], contradicting hh
      have h3 : t.reverse = '-' :: t.reverse.tail := by
        cases ht2 : t.reverse with
        | nil => rw [ht2] at hrev; simp at hrev
        | cons a r =>
          rw [ht2] at hrev
          simp only [List.head?_cons, Option.some.injEq] at hrev
          subst hrev; rfl
      have h6 : t.reverse.tail = ys.reverse ++ ['-'] := by
        have h7 := congrArg List.reverse hy
        simpa using h7
      have h8 : t = ('-' :: ys) ++ ['-'] := by
        have h9 : t.reverse = '-' :: (ys.reverse ++ ['-']) := by rw [h3, h6]
        have h10 := congrArg List.reverse h9
        simpa using h10
      rw [h8] at hh
      simp at hh
  · exact ⟨hh, by assumption, hd⟩

theorem slugOk_slugify (x : Str) : slugOk (slugify x) := by
  unfold slugify stripEdgeDashes
  set t := collapseGo false (trimStr (x.map asciiLower)) with ht
  have hchars : ∀ c ∈ t, isSlugChar c := fun c hc => collapseGo_mem false _ c hc
  have hdd : noDD t := collapseGo_noDD false _
  have h1 : noDD (stripLead t) := noDD_stripLead hdd
  have h2 : (stripLead t).head? ≠ some '-' := stripLead_head hdd
  obtain ⟨p1, p2, p3⟩ := stripTrail_props h1 h2
  exact ⟨fun c hc => hchars c (mem_stripLead (mem_stripTrail hc)), p3, p1, p2⟩

theorem asciiLower_fix (c : Char) (h : isSlugChar c) : asciiLower c = c := by
  rcases h with h | h
  · simp only [isAlnumLower, Bool.or_eq_true, Bool.and_eq_true, decide_eq_true_eq] at h
    unfold asciiLower
    rw [if_neg]
    omega
  · subst h
    decide

theorem slug_not_ws (c : Char) (h : isSlugChar c) : isWs c = false := by
  rcases h with h | h
  · simp only [isAlnumLower, Bool.or_eq_true, Bool.and_eq_true, decide_eq_true_eq] at h
    have h1 : c ≠ ' ' := fun he => by subst he; revert h; decide
    have h2 : c ≠ '\t' := fun he => by subst he; revert h; decide
    have h3 : c ≠ '\n' := fun he => by subst he; revert h; decide
    have h4 : c ≠ '\r' := fun he => by subst he; revert h; decide
    simp [isWs, h1, h2, h3, h4]
  · subst h
    decide

theorem map_fix_of_forall (f : Char → Char) (l : Str) (h : ∀ c ∈ l, f c = c) :
    l.map f = l := by
  induction l with
  | nil => rfl
  | cons a r ih =>
    simp only [List.map_cons]
    rw [h a (by simp), ih (fun c hc => h c (by simp [hc]))]

/-- A string satisfying `slugOk` is a fixed point of `slugify`. -/
theorem slugify_fix (y : Str) (h : slugOk y) : slugify y = y := by
  obtain ⟨hchars, hdd, hhead, hlast⟩ := h
  unfold slugify
  rw [map_fix_of_forall asciiLower y (fun c hc => asciiLower_fix c (hchars c hc))]
  rw [trimStr_of_noWs y (fun c hc => slug_not_ws c (hchars c hc))]
  rw [(collapseGo_fix y hchars hdd).1]
  unfold stripEdgeDashes stripLead stripTrail
  rw [if_neg hhead, if_neg hlast]

theorem slugify_idem (x : Str) : slugify (slugify x) = slugify x :=
  slugify_fix (slugify x) (slugOk_slugify x)

/-! ## JSON values embedded in frontmatter

`writeEntity` stores `source_memories` (an object mapping source names to
arrays of strings) and `relationships` (an array of strings) as
`JSON.stringify` output, and decodes them with `JSON.parse` on the next write.
We model `JSON.stringify` for exactly these two shapes, and `JSON.parse`
restricted to them (a value of any other JSON shape would put data of the
wrong runtime type into the merge, which the typed model rejects as a parse
failure).  Duplicate object keys follow the JS rule: last value wins, first
position kept (`upsert`). -/

def lbrace : Char := Char.ofNat 123

def rbrace : Char := Char.ofNat 125

def hexDig (n : Nat) : Char :=
  if n < 10 then Char.ofNat (48 + n) else Char.ofNat (87 + n)

def hexVal (c : Char) : Option Nat :=
  if 48 ≤ c.toNat ∧ c.toNat ≤ 57 then some (c.toNat - 48)
  else if 97 ≤ c.toNat ∧ c.toNat ≤ 102 then some (c.toNat - 87)
  else if 65 ≤ c.toNat ∧ c.toNat ≤ 70 then some (c.toNat - 55)
  else none

/-- `JSON.stringify` escaping of one character inside a string literal. -/
def escChar (c : Char) : Str :=
  if c = '"' then ['\\', '"']
  else if c = '\\' then ['\\', '\\']
  else if c.toNat = 8 then ['\\', 'b']
  else if c.toNat = 12 then ['\\', 'f']
  else if c = '\n' then ['\\', 'n']
  else if c = '\r' then ['\\', 'r']
  else if c = '\t' then ['\\', 't']
  else if c.toNat < 32 then ['\\', 'u', '0', '0', hexDig (c.toNat / 16), hexDig (c.toNat % 16)]
  else [c]

def escStr : Str → Str
  | [] => []
  | c :: r => escChar c ++ escStr r

def encodeJStr (s : Str) : Str := '"' :: escStr s ++ ['"']

def joinComma : List Str → Str
  | [] => []
  | [l] => l
  | l :: ls => l ++ ',' :: joinComma ls

/-- `JSON.stringify` of an array of strings. -/
def encodeJArr (xs : List Str) : Str :=
  '[' :: joinComma (xs.map encodeJStr) ++ [']']

/-- `JSON.stringify` of an object mapping strings to arrays of strings. -/
def encodeJSM (m : List (Str × List Str)) : Str :=
  lbrace :: joinComma (m.map (fun p => encodeJStr p.1 ++ ':' :: encodeJArr p.2)) ++ [rbrace]

/-- JSON whitespace (identical to the `isWs` set). -/
def skipJWs (s : Str) : Str := s.dropWhile isWs

def consFst (c : Char) : Option (Str × Str) → Option (Str × Str)
  | none => none
  | some (s, r) => some (c :: s, r)

/-- Parse a JSON string body (after the opening quote), handling escapes;
returns the decoded string and the remaining input after the closing quote.
The fuel argument (instantiated with more than the input length at every call
site) only forces structural recursion; it never runs out on real input. -/
def jStrBody : Nat → Str → Option (Str × Str)
  | 0, _ => none
  | _ + 1, [] => none
  | fuel + 1, c :: r =>
    if c = '"' then some ([], r)
    else if c = '\\' then
      match r with
      | [] => none
      | e :: r2 =>
        if e = '"' then consFst '"' (jStrBody fuel r2)
        else if e = '\\' then consFst '\\' (jStrBody fuel r2)
        else if e = '/' then consFst '/' (jStrBody fuel r2)
        else if e = 'b' then consFst (Char.ofNat 8) (jStrBody fuel r2)
        else if e = 'f' then consFst (Char.ofNat 12) (jStrBody fuel r2)
        else if e = 'n' then consFst '\n' (jStrBody fuel r2)
        else if e = 'r' then consFst '\r' (jStrBody fuel r2)
        else if e = 't' then consFst '\t' (jStrBody fuel r2)
        else if e = 'u' then
          match r2 with
          | h1 :: h2 :: h3 :: h4 :: r3 =>
            match hexVal h1, hexVal h2, hexVal h3, hexVal h4 with
            | some a, some b, some c2, some d =>
              consFst (Char.ofNat (a * 4096 + b * 256 + c2 * 16 + d)) (jStrBody fuel r3)
            | _, _, _, _ => none
          | _ => none
        else none
    else if c.toNat < 32 then none
    else consFst c (jStrBody fuel r)

def parseJString (s : Str) : Option (Str × Str) :=
  match s with
  | '"' :: r => jStrBody (r.length + 1) r
  | _ => none

/-- Parse the items of a non-empty JSON array of strings (positioned after the
opening bracket), fuelled by the item count. -/
def jArrItemsGo : Nat → Str → Option (List Str × Str)
  | 0, _ => none
  | fuel + 1, s =>
    match parseJString (skipJWs s) with
    | none => none
    | some (item, r) =>
      match skipJWs r with
      | ',' :: r2 =>
        match jArrItemsGo fuel r2 with
        | some (items, r3) => some (item :: items, r3)
        | none => none
      | ']' :: r2 => some ([item], r2)
      | _ => none

def parseJArr (fuel : Nat) (s : Str) : Option (List Str × Str) :=
  match skipJWs s with
  | '[' :: r =>
    match skipJWs r with
    | ']' :: r2 => some ([], r2)
    | _ => jArrItemsGo fuel r
  | _ => none

/-- Parse the entries of a non-empty JSON object of string arrays (positioned
after the opening brace), accumulating with JS object-assignment semantics. -/
def jObjItemsGo : Nat → List (Str × List Str) → Str → Option (List (Str × List Str) × Str)
  | 0, _, _ => none
  | fuel + 1, acc, s =>
    match parseJString (skipJWs s) with
    | none => none
    | some (key, r) =>
      match skipJWs r with
      | [] => none
      | c0 :: r2 =>
        if c0 = ':' then
          match parseJArr (fuel + 1) r2 with
          | none => none
          | some (items, r3) =>
            match skipJWs r3 with
            | [] => none
            | c :: r4 =>
              if c = ',' then jObjItemsGo fuel (upsert acc key items) r4
              else if c = rbrace then some (upsert acc key items, r4)
              else none
        else none

/-- `JSON.parse` of an array-of-strings value (whole-input). -/
def jsonParseArr (v : Str) : Option (List Str) :=
  match parseJArr (v.length + 1) v with
  | some (items, rest) => if skipJWs rest = [] then some items else none
  | none => none

/-- Inside an object, on the whitespace-skipped head: empty-object check, then
the entry loop (which restarts from the unskipped position `r`). -/
def jsonParseSMBody2 (fuel : Nat) (r : Str) : Str → Option (List (Str × List Str))
  | d :: r2 =>
    if d = rbrace then (if skipJWs r2 = [] then some [] else none)
    else
      match jObjItemsGo fuel [] r with
      | some (m, rest) => if skipJWs rest = [] then some m else none
      | none => none
  | [] => none

def jsonParseSMBody (fuel : Nat) (r : Str) : Option (List (Str × List Str)) :=
  jsonParseSMBody2 fuel r (skipJWs r)

def jsonParseSMTop (fuel : Nat) : Str → Option (List (Str × List Str))
  | c :: r => if c = lbrace then jsonParseSMBody fuel r else none
  | [] => none

/-- `JSON.parse` of an object-of-string-arrays value (whole-input). -/
def jsonParseSM (v : Str) : Option (List (Str × List Str)) :=
  jsonParseSMTop (v.length + 1) (skipJWs v)

/-! ### The decoder inverts the encoder -/

theorem escChar_len_pos (c : Char) : 1 ≤ (escChar c).length := by
  unfold escChar
  repeat' split
  all_goals simp

theorem escStr_len (s : Str) : s.length ≤ (escStr s).length := by
  induction s with
  | nil => simp [escStr]
  | cons c r ih =>
    have h1 := escChar_len_pos c
    simp only [escStr, List.length_append, List.length_cons]
    omega

theorem hexVal_hexDig : ∀ n, n < 16 → hexVal (hexDig n) = some n := by decide

theorem jStrBody_esc (s : Str) : ∀ (fuel : Nat) (rest : Str), s.length + 1 ≤ fuel →
    jStrBody fuel (escStr s ++ '"' :: rest) = some (s, rest) := by
  induction s with
  | nil =>
    intro fuel rest hf
    match fuel, hf with
    | f + 1, _ => simp [escStr, jStrBody]
  | cons c cs ih =>
    intro fuel rest hf
    match fuel, hf with
    | f + 1, hf =>
      have hfc : cs.length + 1 ≤ f := by
        simp only [List.length_cons] at hf
        omega
      have ihc := ih f rest hfc
      simp only [escStr, List.append_assoc]
      by_cases h1 : c = '"'
      · subst h1; simp [escChar, jStrBody, ihc, consFst]
      · by_cases h2 : c = '\\'
        · subst h2; simp [escChar, jStrBody, ihc, consFst]
        · by_cases h3 : c.toNat = 8
          · have hc : c = Char.ofNat 8 := by rw [← Char.ofNat_toNat c, h3]
            simp [escChar, h1, h2, h3, jStrBody, ihc, consFst, hc]
          · by_cases h4 : c.toNat = 12
            · have hc : c = Char.ofNat 12 := by rw [← Char.ofNat_toNat c, h4]
              simp [escChar, h1, h2, h3, h4, jStrBody, ihc, consFst, hc]
            · by_cases h5 : c = '\n'
              · subst h5; simp [escChar, jStrBody, ihc, consFst]
              · by_cases h6 : c = '\r'
                · subst h6; simp [escChar, jStrBody, ihc, consFst]
                · by_cases h7 : c = '\t'
                  · subst h7; simp [escChar, jStrBody, ihc, consFst]
                  · by_cases h8 : c.toNat < 32
                    · have ha := hexVal_hexDig (c.toNat / 16) (by omega)
                      have hb := hexVal_hexDig (c.toNat % 16) (by omega)
                      have h0 : hexVal '0' = some 0 := by decide
                      simp only [escChar, if_neg h1, if_neg h2, if_neg h3, if_neg h4,
                        if_neg h5, if_neg h6, if_neg h7, if_pos h8]
                      simp only [List.cons_append, List.nil_append]
                      simp [jStrBody, h0, ha, hb, ihc, consFst]
                      rw [show c.toNat / 16 * 16 + c.toNat % 16 = c.toNat by omega,
                        Char.ofNat_toNat]
                    · simp [escChar, h1, h2, h3, h4, h5, h6, h7, h8, jStrBody, ihc, consFst]

theorem parseJString_enc (s : Str) (rest : Str) :
    parseJString (encodeJStr s ++ rest) = some (s, rest) := by
  have hshape : encodeJStr s ++ rest = '"' :: (escStr s ++ '"' :: rest) := by
    simp [encodeJStr]
  rw [hshape]
  have hlen : s.length + 1 ≤ (escStr s ++ '"' :: rest).length + 1 := by
    have := escStr_len s
    simp only [List.length_append, List.length_cons]
    omega
  simpa [parseJString] using jStrBody_esc s ((escStr s ++ '"' :: rest).length + 1) rest hlen

@[simp] theorem skipJWs_nil : skipJWs [] = [] := rfl

theorem skipJWs_cons_nonws (c : Char) (r : Str) (h : isWs c = false) :
    skipJWs (c :: r) = c :: r := by
  simp [skipJWs, List.dropWhile_cons, h]

@[simp] theorem skipJWs_quote (r : Str) : skipJWs ('"' :: r) = '"' :: r :=
  skipJWs_cons_nonws '"' r (by decide)

@[simp] theorem skipJWs_comma (r : Str) : skipJWs (',' :: r) = ',' :: r :=
  skipJWs_cons_nonws ',' r (by decide)

@[simp] theorem skipJWs_colon (r : Str) : skipJWs (':' :: r) = ':' :: r :=
  skipJWs_cons_nonws ':' r (by decide)

@[simp] theorem skipJWs_lbracket (r : Str) : skipJWs ('[' :: r) = '[' :: r :=
  skipJWs_cons_nonws '[' r (by decide)

@[simp] theorem skipJWs_rbracket (r : Str) : skipJWs (']' :: r) = ']' :: r :=
  skipJWs_cons_nonws ']' r (by decide)

@[simp] theorem skipJWs_lbrace (r : Str) : skipJWs (lbrace :: r) = lbrace :: r :=
  skipJWs_cons_nonws lbrace r (by decide)

@[simp] theorem skipJWs_rbrace (r : Str) : skipJWs (rbrace :: r) = rbrace :: r :=
  skipJWs_cons_nonws rbrace r (by decide)

theorem encodeJStr_head (s : Str) (rest : Str) :
    encodeJStr s ++ rest = '"' :: (escStr s ++ '"' :: rest) := by
  simp [encodeJStr]

theorem jArrItemsGo_enc (xs : List Str) : ∀ (fuel : Nat) (rest : Str), xs ≠ [] →
    xs.length ≤ fuel →
    jArrItemsGo fuel (joinComma (xs.map encodeJStr) ++ ']' :: rest) = some (xs, rest) := by
  induction xs with
  | nil => intro _ _ hne _; exact absurd rfl hne
  | cons x xs ih =>
    intro fuel rest _ hlen
    match fuel, hlen with
    | f + 1, hlen =>
      cases xs with
      | nil =>
        simp only [List.map_cons, List.map_nil, joinComma]
        rw [jArrItemsGo, encodeJStr_head, skipJWs_quote,
          show ('"' :: (escStr x ++ '"' :: (']' :: rest))) = encodeJStr x ++ ']' :: rest by
            simp [encodeJStr],
          parseJString_enc x (']' :: rest)]
        simp
      | cons y ys =>
        simp only [List.map_cons, joinComma]
        have hstep : (encodeJStr x ++ ',' :: joinComma (encodeJStr y :: ys.map encodeJStr)) ++ ']' :: rest
            = encodeJStr x ++ ',' :: (joinComma (encodeJStr y :: ys.map encodeJStr) ++ ']' :: rest) := by
          simp
        rw [jArrItemsGo, hstep, encodeJStr_head, skipJWs_quote,
          show ('"' :: (escStr x ++ '"' :: (',' :: (joinComma (encodeJStr y :: ys.map encodeJStr) ++ ']' :: rest)))) = encodeJStr x ++ ',' :: (joinComma (encodeJStr y :: ys.map encodeJStr) ++ ']' :: rest) by
            simp [encodeJStr],
          parseJString_enc]
        have ihy := ih f rest (by simp) (by
          simp only [List.length_cons] at hlen ⊢
          omega)
        simp only [List.map_cons] at ihy
        simp [ihy]

theorem encodeJStr_len (s : Str) : 2 ≤ (encodeJStr s).length := by
  simp [encodeJStr]

theorem joinComma_map_len (xs : List Str) :
    xs.length ≤ (joinComma (xs.map encodeJStr)).length + 1 := by
  induction xs with
  | nil => simp
  | cons x xs ih =>
    cases xs with
    | nil =>
      have := encodeJStr_len x
      simp only [List.map_cons, List.map_nil, joinComma, List.length_cons, List.length_nil]
      omega
    | cons y ys =>
      simp only [List.map_cons, joinComma] at ih ⊢
      simp only [List.length_append, List.length_cons] at ih ⊢
      have := encodeJStr_len x
      omega

theorem parseJArr_enc (xs : List Str) (fuel : Nat) (rest : Str) (hf : xs.length ≤ fuel) :
    parseJArr fuel (encodeJArr xs ++ rest) = some (xs, rest) := by
  have hshape : encodeJArr xs ++ rest = '[' :: (joinComma (xs.map encodeJStr) ++ ']' :: rest) := by
    simp [encodeJArr]
  rw [hshape, parseJArr, skipJWs_lbracket]
  cases xs with
  | nil => simp [joinComma]
  | cons x xs' =>
    have harr := jArrItemsGo_enc (x :: xs') fuel rest (by simp) hf
    cases xs' with
    | nil =>
      have hji : joinComma ((x :: ([] : List Str)).map encodeJStr) ++ ']' :: rest
          = '"' :: (escStr x ++ '"' :: (']' :: rest)) := by
        simp [joinComma, encodeJStr]
      rw [hji] at harr ⊢
      simp [harr]
    | cons y ys =>
      have hji : joinComma ((x :: y :: ys).map encodeJStr) ++ ']' :: rest
          = '"' :: (escStr x ++ '"' :: (',' :: (joinComma (encodeJStr y :: ys.map encodeJStr) ++ ']' :: rest))) := by
        simp [joinComma, encodeJStr]
      rw [hji] at harr ⊢
      simp [harr]

theorem encodeJArr_len (xs : List Str) : xs.length ≤ (encodeJArr xs).length := by
  have := joinComma_map_len xs
  simp only [encodeJArr, List.length_cons, List.length_append, List.length_nil]
  omega

theorem upsert_absent_append {α : Type} (m : List (Str × α)) (k : Str) (v : α)
    (h : alookup m k = none) : upsert m k v = m ++ [(k, v)] := by
  induction m with
  | nil => rfl
  | cons p r ih =>
    obtain ⟨k', v'⟩ := p
    by_cases hk : k' = k
    · rw [alookup_cons, if_pos hk] at h
      simp at h
    · rw [alookup_cons, if_neg hk] at h
      simp [upsert, hk, ih h]

theorem foldl_upsert_append (m : List (Str × List Str)) : ∀ (acc : List (Str × List Str)),
    (∀ k ∈ m.map Prod.fst, alookup acc k = none) → (m.map Prod.fst).Nodup →
    m.foldl (fun a p => upsert a p.1 p.2) acc = acc ++ m := by
  induction m with
  | nil => intro acc _ _; simp
  | cons p m' ih =>
    intro acc habs hnd
    obtain ⟨k, v⟩ := p
    simp only [List.foldl_cons]
    rw [upsert_absent_append acc k v (habs k (by simp))]
    rw [ih (acc ++ [(k, v)]) ?_ ?_]
    · simp
    · intro k' hk'
      have hkk : k' ≠ k := by
        simp only [List.map_cons] at hnd
        intro he
        subst he
        exact (List.nodup_cons.mp hnd).1 hk'
      have h1 : alookup acc k' = none := habs k' (by simp [hk'])
      rw [alookup_append, h1]
      show alookup [(k, v)] k' = none
      rw [alookup_cons, if_neg (fun he => hkk he.symm)]
      rfl
    · simp only [List.map_cons] at hnd
      exact (List.nodup_cons.mp hnd).2

/-- Encoding of one object entry. -/
def encObjEntry (p : Str × List Str) : Str := encodeJStr p.1 ++ ':' :: encodeJArr p.2

theorem jObjItemsGo_enc (m : List (Str × List Str)) :
    ∀ (fuel : Nat) (acc : List (Str × List Str)) (rest : Str), m ≠ [] →
    (joinComma (m.map encObjEntry) ++ rbrace :: rest).length ≤ fuel →
    jObjItemsGo fuel acc (joinComma (m.map encObjEntry) ++ rbrace :: rest)
      = some (m.foldl (fun a p => upsert a p.1 p.2) acc, rest) := by
  induction m with
  | nil => intro _ _ _ hne _; exact absurd rfl hne
  | cons p m' ih =>
    intro fuel acc rest _ hlen
    obtain ⟨k, v⟩ := p
    obtain ⟨f, rfl⟩ : ∃ f, fuel = f + 1 := by
      cases fuel with
      | zero =>
        exfalso
        simp only [List.length_append, List.length_cons] at hlen
        omega
      | succ f => exact ⟨f, rfl⟩
    have hrbc : ¬(rbrace = ',') := by decide
    cases m' with
    | nil =>
      have hshape : joinComma (((k, v) :: ([] : List (Str × List Str))).map encObjEntry) ++ rbrace :: rest
          = encodeJStr k ++ ':' :: (encodeJArr v ++ rbrace :: rest) := by
        simp [joinComma, encObjEntry]
      rw [hshape]
      have hvlen : v.length ≤ f + 1 := by
        have h1 := encodeJArr_len v
        rw [hshape] at hlen
        simp only [List.length_append, List.length_cons] at hlen
        omega
      rw [jObjItemsGo, encodeJStr_head, skipJWs_quote,
        show ('"' :: (escStr k ++ '"' :: (':' :: (encodeJArr v ++ rbrace :: rest)))) = encodeJStr k ++ ':' :: (encodeJArr v ++ rbrace :: rest) by
          simp [encodeJStr],
        parseJString_enc]
      have hv := parseJArr_enc v (f + 1) (rbrace :: rest) hvlen
      simp [hv, hrbc]
    | cons q m'' =>
      have hshape : joinComma (((k, v) :: q :: m'').map encObjEntry) ++ rbrace :: rest
          = encodeJStr k ++ ':' :: (encodeJArr v ++ ',' :: (joinComma ((q :: m'').map encObjEntry) ++ rbrace :: rest)) := by
        simp [joinComma, encObjEntry]
      rw [hshape]
      have hvlen : v.length ≤ f + 1 := by
        have h1 := encodeJArr_len v
        rw [hshape] at hlen
        simp only [List.length_append, List.length_cons] at hlen
        omega
      rw [jObjItemsGo, encodeJStr_head, skipJWs_quote,
        show ('"' :: (escStr k ++ '"' :: (':' :: (encodeJArr v ++ ',' :: (joinComma ((q :: m'').map encObjEntry) ++ rbrace :: rest))))) = encodeJStr k ++ ':' :: (encodeJArr v ++ ',' :: (joinComma ((q :: m'').map encObjEntry) ++ rbrace :: rest)) by
          simp [encodeJStr],
        parseJString_enc]
      have hv := parseJArr_enc v (f + 1) (',' :: (joinComma ((q :: m'').map encObjEntry) ++ rbrace :: rest)) hvlen
      have ihq := ih f (upsert acc k v) rest (by simp) (by
        rw [hshape] at hlen
        simp only [List.length_append, List.length_cons] at hlen ⊢
        omega)
      simp only [List.map_cons] at hv ihq ⊢
      simp [hv, ihq]

theorem jsonParseSM_enc (m : List (Str × List Str)) (h : (m.map Prod.fst).Nodup) :
    jsonParseSM (encodeJSM m) = some m := by
  have hshape : encodeJSM m = lbrace :: (joinComma (m.map encObjEntry) ++ [rbrace]) := rfl
  rw [jsonParseSM, hshape, skipJWs_lbrace, jsonParseSMTop, if_pos rfl]
  cases m with
  | nil =>
    rw [show joinComma (List.map encObjEntry []) ++ [rbrace] = [rbrace] by simp [joinComma],
      jsonParseSMBody, skipJWs_rbrace, jsonParseSMBody2, if_pos rfl]
    simp
  | cons p m' =>
    have hquote : ∃ t, joinComma ((p :: m').map encObjEntry) ++ [rbrace] = '"' :: t := by
      cases m' with
      | nil =>
        refine ⟨escStr p.1 ++ '"' :: (':' :: (encodeJArr p.2 ++ [rbrace])), ?_⟩
        simp [joinComma, encObjEntry, encodeJStr]
      | cons q m'' =>
        refine ⟨escStr p.1 ++ '"' :: (':' :: (encodeJArr p.2 ++
          ',' :: (joinComma (encObjEntry q :: m''.map encObjEntry) ++ [rbrace]))), ?_⟩
        simp [joinComma, encObjEntry, encodeJStr]
    obtain ⟨t, ht⟩ := hquote
    have hobj := jObjItemsGo_enc (p :: m')
      ((lbrace :: (joinComma ((p :: m').map encObjEntry) ++ [rbrace])).length + 1)
      [] [] (by simp) (by simp)
    rw [show joinComma ((p :: m').map encObjEntry) ++ rbrace :: ([] : Str)
        = joinComma ((p :: m').map encObjEntry) ++ [rbrace] by simp] at hobj
    rw [foldl_upsert_append (p :: m') [] (by simp) h] at hobj
    rw [ht] at hobj
    rw [jsonParseSMBody, ht, skipJWs_quote, jsonParseSMBody2, if_neg (by decide), hobj]
    simp

theorem jsonParseArr_enc (xs : List Str) : jsonParseArr (encodeJArr xs) = some xs := by
  unfold jsonParseArr
  have hlen : xs.length ≤ (encodeJArr xs).length + 1 := by
    have h1 := joinComma_map_len xs
    simp only [encodeJArr, List.length_cons, List.length_append]
    omega
  have := parseJArr_enc xs ((encodeJArr xs).length + 1) [] hlen
  rw [show encodeJArr xs ++ [] = encodeJArr xs by simp] at this
  rw [this]
  rfl

/-! ## The frontmatter convention

Both `src/sync/markdown.ts` and `src/graph/state.ts` split a file with the
regex `/^---\n([\s\S]*?)\n---\n?/`: the file must start with `---\n`; the lazy
group ends at the EARLIEST later occurrence of `\n---` (a newline followed by
three hyphens — the closing line need not be exactly `---`); one following
newline, if present, is consumed.  Frontmatter text is split into lines; each
line with a colon at a positive index yields `key: value` with both sides
trimmed. -/

/-- Does `s` begin with `\n---`? -/
def isNlDash (s : Str) : Bool := hasPre ('\n' :: '-' :: '-' :: '-' :: []) s

/-- Consume one optional newline (the `\n?` at the end of the regex). -/
def dropNl (s : Str) : Str := if s.head? = some '\n' then s.tail else s

/-- Find the earliest `\n---` in `s`; return the text before it and the rest
after it (with one following newline consumed) — the lazy part of the regex. -/
def fmSearch : Str → Option (Str × Str)
  | [] => none
  | c :: rest =>
    if isNlDash (c :: rest) then some ([], dropNl ((c :: rest).drop 4))
    else
      match fmSearch rest with
      | some (fm, body) => some (c :: fm, body)
      | none => none

/-- The full regex match: `some (frontmatterText, body)` on success. -/
def fmMatch : Str → Option (Str × Str)
  | '-' :: '-' :: '-' :: '\n' :: t => fmSearch t
  | _ => none

/-- JS `line.indexOf(":")`, as an `Option`. -/
def idxOfColon : Str → Option Nat
  | [] => none
  | c :: r => if c = ':' then some 0 else (idxOfColon r).map (· + 1)

/-- One `key: value` line: split at the first colon if its index is positive,
trim both sides. -/
def parseFmLine (line : Str) : Option (Str × Str) :=
  match idxOfColon line with
  | none => none
  | some idx =>
    if 0 < idx then some (trimStr (line.take idx), trimStr (line.drop (idx + 1)))
    else none

/-- One step of the frontmatter-building loop (`frontmatter[key] = value`
when the line has a key). -/
def fmStep (fm : List (Str × Str)) (line : Str) : List (Str × Str) :=
  match parseFmLine line with
  | some (k, v) => upsert fm k v
  | none => fm

/-- Fold the parsed lines into a JS object. -/
def fmLinesToMap (lines : List Str) : List (Str × Str) :=
  lines.foldl fmStep []

theorem fmStep_some (fm : List (Str × Str)) (line : Str) (k v : Str)
    (h : parseFmLine line = some (k, v)) : fmStep fm line = upsert fm k v := by
  simp [fmStep, h]

theorem fmStep_none (fm : List (Str × Str)) (line : Str)
    (h : parseFmLine line = none) : fmStep fm line = fm := by
  simp [fmStep, h]

/-- `parseFrontmatter` of `src/sync/markdown.ts`. -/
def parseFrontmatter (content : Str) : List (Str × Str) × Str :=
  match fmMatch content with
  | none => ([], content)
  | some (fmText, body) => (fmLinesToMap (splitOnNl fmText), body)

/-- One serialized frontmatter line: `${key}: ${value}`. -/
def mkFmLine (p : Str × Str) : Str := p.1 ++ ':' :: ' ' :: p.2

/-- `serializeFrontmatter` of `src/sync/markdown.ts`:
`---\n` + `key: value` lines + `\n---\n`. -/
def serializeFrontmatter (fm : List (Str × Str)) : Str :=
  '-' :: '-' :: '-' :: '\n' ::
    (joinNl (fm.map mkFmLine) ++ '\n' :: '-' :: '-' :: '-' :: '\n' :: [])

/-! ### Round trip: serialized frontmatter parses back -/

def hasNlDash : Str → Bool
  | [] => false
  | c :: rest => isNlDash (c :: rest) || hasNlDash rest

theorem fmSearch_concat (t : Str) (r : Str) (h : hasNlDash t = false) :
    fmSearch (t ++ '\n' :: '-' :: '-' :: '-' :: r) = some (t, dropNl r) := by
  induction t with
  | nil =>
    rw [List.nil_append, fmSearch, if_pos (by simp [isNlDash, hasPre])]
    simp
  | cons c t' ih =>
    rw [hasNlDash] at h
    simp only [Bool.or_eq_false_iff] at h
    have hnd : isNlDash (c :: (t' ++ '\n' :: '-' :: '-' :: '-' :: r)) = false := by
      cases t' with
      | nil => simp [isNlDash, hasPre]
      | cons a t2 =>
        cases t2 with
        | nil => simp [isNlDash, hasPre]
        | cons b t3 =>
          cases t3 with
          | nil => simp [isNlDash, hasPre]
          | cons d t4 =>
            have := h.1
            simpa [isNlDash, hasPre] using this
    rw [List.cons_append, fmSearch, if_neg (by simp [hnd]), ih h.2]

theorem hasNlDash_append_of_noNl (l : Str) (X : Str) (h : '\n' ∉ l) :
    hasNlDash (l ++ X) = hasNlDash X := by
  induction l with
  | nil => simp
  | cons c r ih =>
    have hc : c ≠ '\n' := by
      intro he; exact h (by simp [he])
    have hr : '\n' ∉ r := by
      intro he; exact h (by simp [he])
    rw [List.cons_append, hasNlDash]
    have : isNlDash (c :: (r ++ X)) = false := by
      have h2 : ¬('\n' = c) := fun he => hc he.symm
      simp [isNlDash, hasPre, h2]
    rw [this, ih hr]
    simp

theorem hasNlDash_of_noNl (l : Str) (h : '\n' ∉ l) : hasNlDash l = false := by
  have := hasNlDash_append_of_noNl l [] h
  simpa using this

/-- A serialized `key: value` line cannot begin with `---` unless its key
does. -/
theorem line_dash (k : Str) (w : Str) (h : hasPre ('-' :: '-' :: '-' :: []) k = false) :
    hasPre ('-' :: '-' :: '-' :: []) (k ++ ':' :: w) = false := by
  cases k with
  | nil => simp [hasPre]
  | cons a t2 =>
    cases t2 with
    | nil => simp [hasPre]
    | cons b t3 =>
      cases t3 with
      | nil => simp [hasPre]
      | cons d t4 => simpa [hasPre] using h

theorem mkFmLine_no_nl (p : Str × Str) (h1 : '\n' ∉ p.1) (h2 : '\n' ∉ p.2) :
    '\n' ∉ mkFmLine p := by
  intro hmem
  rw [mkFmLine] at hmem
  rcases List.mem_append.mp hmem with h | h
  · exact h1 h
  · rcases List.mem_cons.mp h with h | h
    · simp at h
    · rcases List.mem_cons.mp h with h | h
      · simp at h
      · exact h2 h

theorem hasNlDash_joinNl_lines (fm : List (Str × Str))
    (hnl : ∀ p ∈ fm, '\n' ∉ p.1 ∧ '\n' ∉ p.2)
    (htail : ∀ p ∈ fm.tail, hasPre ('-' :: '-' :: '-' :: []) p.1 = false) :
    hasNlDash (joinNl (fm.map mkFmLine)) = false := by
  induction fm with
  | nil => simp [hasNlDash]
  | cons p fm' ih =>
    obtain ⟨hp1, hp2⟩ := hnl p (by simp)
    have hline : '\n' ∉ mkFmLine p := mkFmLine_no_nl p hp1 hp2
    cases fm' with
    | nil =>
      simp only [List.map_cons, List.map_nil, joinNl_single]
      exact hasNlDash_of_noNl _ hline
    | cons q fm'' =>
      simp only [List.map_cons]
      rw [joinNl_cons, hasNlDash_append_of_noNl _ _ hline, hasNlDash]
      have hq3 : hasPre ('-' :: '-' :: '-' :: []) q.1 = false := htail q (by simp)
      have hdash : isNlDash ('\n' :: joinNl (mkFmLine q :: fm''.map mkFmLine)) = false := by
        rw [isNlDash]
        simp only [hasPre_cons]
        have hJ : hasPre ('-' :: '-' :: '-' :: []) (joinNl (mkFmLine q :: fm''.map mkFmLine)) = false := by
          cases fm'' with
          | nil =>
            simp only [List.map_nil, joinNl_single, mkFmLine]
            exact line_dash q.1 (' ' :: q.2) hq3
          | cons s fm3 =>
            simp only [List.map_cons]
            rw [joinNl_cons]
            rw [show mkFmLine q ++ '\n' :: joinNl (mkFmLine s :: fm3.map mkFmLine)
                = q.1 ++ ':' :: (' ' :: (q.2 ++ '\n' :: joinNl (mkFmLine s :: fm3.map mkFmLine))) by
              simp [mkFmLine]]
            exact line_dash q.1 _ hq3
        simp [hJ]
      rw [hdash]
      have ihq := ih (fun r hr => hnl r (by simp [hr]))
        (fun r hr => htail r (by simp; right; simpa using hr))
      simp only [List.map_cons] at ihq
      simp [ihq]

theorem idxOfColon_concat (k : Str) (w : Str) (h : ':' ∉ k) :
    idxOfColon (k ++ ':' :: w) = some k.length := by
  induction k with
  | nil => simp [idxOfColon]
  | cons c r ih =>
    have hc : c ≠ ':' := by
      intro he; exact h (by simp [he])
    have hr : ':' ∉ r := by
      intro he; exact h (by simp [he])
    rw [List.cons_append, idxOfColon, if_neg hc, ih hr]
    rfl

theorem trimStr_space_cons (v : Str) : trimStr (' ' :: v) = trimStr v := by
  rw [trimStr, trimStr, List.dropWhile_cons, if_pos (by decide)]

theorem parseFmLine_mk (k v : Str) (hk : ':' ∉ k) (htk : trimStr k = k)
    (htv : trimStr v = v) :
    parseFmLine (mkFmLine (k, v)) = if k = [] then none else some (k, v) := by
  by_cases hke : k = []
  · subst hke
    simp [parseFmLine, mkFmLine, idxOfColon]
  · rw [if_neg hke, parseFmLine, mkFmLine, idxOfColon_concat k (' ' :: v) hk]
    show (if 0 < k.length then
        some (trimStr ((k ++ ':' :: ' ' :: v).take k.length),
          trimStr ((k ++ ':' :: ' ' :: v).drop (k.length + 1)))
      else none) = some (k, v)
    rw [if_pos (List.length_pos.mpr hke)]
    have ht : (k ++ ':' :: ' ' :: v).take k.length = k := by
      simp
    have hd : (k ++ ':' :: ' ' :: v).drop (k.length + 1) = ' ' :: v := by
      rw [show k ++ ':' :: ' ' :: v = (k ++ [':']) ++ ' ' :: v by simp,
        show k.length + 1 = (k ++ [':']).length by simp]
      exact List.drop_left _ _
    rw [ht, hd, htk, trimStr_space_cons, htv]

theorem fmFold_mkLines (fm : List (Str × Str)) : ∀ (acc : List (Str × Str)),
    (∀ p ∈ fm, ':' ∉ p.1 ∧ trimStr p.1 = p.1 ∧ trimStr p.2 = p.2) →
    (fm.map Prod.fst).Nodup →
    (∀ p ∈ fm, p.1 ≠ [] → alookup acc p.1 = none) →
    (fm.map mkFmLine).foldl fmStep acc = acc ++ fm.filter (fun p => p.1 ≠ []) := by
  induction fm with
  | nil => intro acc _ _ _; simp
  | cons p fm' ih =>
    intro acc hcl hnd hfresh
    obtain ⟨k, v⟩ := p
    obtain ⟨hk, htk, htv⟩ := hcl (k, v) (by simp)
    have hline := parseFmLine_mk k v hk htk htv
    simp only [List.map_cons, List.foldl_cons]
    by_cases hke : k = []
    · rw [if_pos hke] at hline
      rw [fmStep_none acc _ hline]
      rw [ih acc (fun r hr => hcl r (by simp [hr]))
        (by simp only [List.map_cons] at hnd; exact (List.nodup_cons.mp hnd).2)
        (fun r hr hne => hfresh r (by simp [hr]) hne)]
      subst hke
      simp
    · rw [if_neg hke] at hline
      rw [fmStep_some acc _ k v hline]
      rw [upsert_absent_append acc k v (hfresh (k, v) (by simp) hke)]
      rw [ih (acc ++ [(k, v)]) (fun r hr => hcl r (by simp [hr]))
        (by simp only [List.map_cons] at hnd; exact (List.nodup_cons.mp hnd).2)
        ?_]
      · simp [hke]
      · intro r hr hne
        rw [alookup_append, hfresh r (by simp [hr]) hne]
        have hrk : r.1 ≠ k := by
          simp only [List.map_cons] at hnd
          intro he
          exact (List.nodup_cons.mp hnd).1 (he ▸ List.mem_map_of_mem Prod.fst hr)
        show alookup [(k, v)] r.1 = none
        rw [alookup_cons, if_neg (fun he => hrk he.symm)]
        rfl

/-- Round trip: a serialized frontmatter block followed by an arbitrary body
parses back to the same mapping (minus empty-key entries, whose lines are
skipped) and the same body — provided keys and values are colon/newline-clean
and trimmed, keys are unique, and no key after the first begins with `---`. -/
theorem parseFrontmatter_serialize (fm : List (Str × Str)) (body : Str)
    (hclean : ∀ p ∈ fm, '\n' ∉ p.1 ∧ ':' ∉ p.1 ∧ trimStr p.1 = p.1 ∧
      '\n' ∉ p.2 ∧ trimStr p.2 = p.2)
    (hnd : (fm.map Prod.fst).Nodup)
    (htail : ∀ p ∈ fm.tail, hasPre ('-' :: '-' :: '-' :: []) p.1 = false) :
    parseFrontmatter (serializeFrontmatter fm ++ body)
      = (fm.filter (fun p => p.1 ≠ []), body) := by
  have hshape : serializeFrontmatter fm ++ body
      = '-' :: '-' :: '-' :: '\n' ::
          (joinNl (fm.map mkFmLine) ++ '\n' :: '-' :: '-' :: '-' :: ('\n' :: body)) := by
    simp [serializeFrontmatter]
  have hJ : hasNlDash (joinNl (fm.map mkFmLine)) = false :=
    hasNlDash_joinNl_lines fm (fun p hp => ⟨(hclean p hp).1, (hclean p hp).2.2.2.1⟩) htail
  have hfm : fmMatch ('-' :: '-' :: '-' :: '\n' ::
      (joinNl (fm.map mkFmLine) ++ '\n' :: '-' :: '-' :: '-' :: ('\n' :: body)))
      = some (joinNl (fm.map mkFmLine), body) := by
    rw [fmMatch, fmSearch_concat _ _ hJ]
    simp [dropNl]
  rw [hshape, parseFrontmatter, hfm]
  show (fmLinesToMap (splitOnNl (joinNl (fm.map mkFmLine))), body)
      = (fm.filter (fun p => p.1 ≠ []), body)
  cases fm with
  | nil =>
    simp [fmLinesToMap, splitOnNl, fmStep, parseFmLine, idxOfColon]
  | cons p fm' =>
    have hlines : splitOnNl (joinNl ((p :: fm').map mkFmLine)) = (p :: fm').map mkFmLine := by
      refine splitOnNl_join _ (by simp) ?_
      intro l hl
      obtain ⟨q, hq, rfl⟩ := List.mem_map.mp hl
      exact mkFmLine_no_nl q (hclean q hq).1 (hclean q hq).2.2.2.1
    rw [hlines, fmLinesToMap,
      fmFold_mkLines (p :: fm') []
        (fun r hr => ⟨(hclean r hr).2.1, (hclean r hr).2.2.1, (hclean r hr).2.2.2.2⟩)
        hnd (fun r _ _ => rfl)]
    simp

/-! ### Parsed frontmatter is clean

Keys and values coming out of `parseFrontmatter` are single-line and trimmed,
keys contain no colon, and the mapping's keys are unique — the facts that make
`serializeFrontmatter` faithful on a reparse. -/

theorem splitOnNl_no_nl (s : Str) (l : Str) (h : l ∈ splitOnNl s) : '\n' ∉ l := by
  induction s generalizing l with
  | nil =>
    simp only [splitOnNl, List.mem_singleton] at h
    subst h; simp
  | cons c r ih =>
    rw [splitOnNl] at h
    split at h
    · rcases List.mem_cons.mp h with h | h
      · subst h; simp
      · exact ih l h
    · rename_i hc
      rcases hs : splitOnNl r with _ | ⟨hd, tl⟩
      · exact absurd hs (splitOnNl_ne_nil r)
      · rw [hs] at h
        rcases List.mem_cons.mp h with h | h
        · subst h
          intro hmem
          rcases List.mem_cons.mp hmem with h2 | h2
          · exact hc h2.symm
          · exact ih hd (by rw [hs]; simp) h2
        · exact ih l (by rw [hs]; exact List.mem_cons_of_mem _ h)

theorem idxOfColon_take (line : Str) : ∀ idx, idxOfColon line = some idx →
    ':' ∉ line.take idx := by
  induction line with
  | nil => intro idx h; simp [idxOfColon] at h
  | cons c r ih =>
    intro idx h
    rw [idxOfColon] at h
    split at h
    · rename_i hc
      simp only [Option.some.injEq] at h
      subst h
      simp
    · rename_i hc
      rcases hi : idxOfColon r with _ | j
      · rw [hi] at h; simp at h
      · rw [hi] at h
        simp only [Option.map] at h
        rw [Option.some.injEq] at h
        subst h
        simp only [List.take_succ_cons]
        intro hmem
        rcases List.mem_cons.mp hmem with h2 | h2
        · exact hc h2.symm
        · exact ih j hi h2

theorem mem_take {c : Char} {n : Nat} {l : Str} (h : c ∈ l.take n) : c ∈ l :=
  List.mem_of_mem_take h

/-- Every pair produced by a successful line parse is clean. -/
theorem parseFmLine_clean (line : Str) (k v : Str) (hnl : '\n' ∉ line)
    (h : parseFmLine line = some (k, v)) :
    '\n' ∉ k ∧ ':' ∉ k ∧ trimStr k = k ∧ '\n' ∉ v ∧ trimStr v = v := by
  rcases hi : idxOfColon line with _ | idx
  · have h2 : (none : Option (Str × Str)) = some (k, v) := by
      rw [parseFmLine, hi] at h
      exact h
    cases h2
  · have h2 : (if 0 < idx then
        some (trimStr (line.take idx), trimStr (line.drop (idx + 1)))
      else none) = some (k, v) := by
      rw [parseFmLine, hi] at h
      exact h
    by_cases hp : 0 < idx
    · rw [if_pos hp] at h2
      rw [Option.some.injEq, Prod.mk.injEq] at h2
      obtain ⟨hk, hv⟩ := h2
      subst hk; subst hv
      refine ⟨?_, ?_, trimStr_idem _, ?_, trimStr_idem _⟩
      · intro hmem
        exact hnl (mem_take (mem_trimStr hmem))
      · intro hmem
        exact idxOfColon_take line idx hi (mem_trimStr hmem)
      · intro hmem
        exact hnl (List.mem_of_mem_drop (mem_trimStr hmem))
    · rw [if_neg hp] at h2
      cases h2

theorem mem_upsert {α : Type} {p : Str × α} {m : List (Str × α)} {k : Str} {v : α}
    (h : p ∈ upsert m k v) : p ∈ m ∨ p = (k, v) := by
  induction m with
  | nil =>
    simp only [upsert, List.mem_singleton] at h
    exact Or.inr h
  | cons q r ih =>
    obtain ⟨k', v'⟩ := q
    rw [upsert] at h
    split at h
    · rcases List.mem_cons.mp h with h | h
      · exact Or.inr h
      · exact Or.inl (List.mem_cons_of_mem _ h)
    · rcases List.mem_cons.mp h with h | h
      · exact Or.inl (by simp [h])
      · rcases ih h with h2 | h2
        · exact Or.inl (List.mem_cons_of_mem _ h2)
        · exact Or.inr h2

theorem mem_foldl_fmStep (lines : List Str) : ∀ (acc : List (Str × Str)) (p : Str × Str),
    p ∈ lines.foldl fmStep acc →
    p ∈ acc ∨ ∃ line ∈ lines, parseFmLine line = some (p.1, p.2) := by
  induction lines with
  | nil => intro acc p h; exact Or.inl h
  | cons line lines' ih =>
    intro acc p h
    rw [List.foldl_cons] at h
    rcases hl : parseFmLine line with _ | ⟨k, v⟩
    · rw [fmStep_none acc line hl] at h
      rcases ih acc p h with h2 | ⟨l2, hl2, h2⟩
      · exact Or.inl h2
      · exact Or.inr ⟨l2, by simp [hl2], h2⟩
    · rw [fmStep_some acc line k v hl] at h
      rcases ih _ p h with h2 | ⟨l2, hl2, h2⟩
      · rcases mem_upsert h2 with h3 | h3
        · exact Or.inl h3
        · refine Or.inr ⟨line, by simp, ?_⟩
          rw [hl, h3]
      · exact Or.inr ⟨l2, by simp [hl2], h2⟩

theorem nodup_foldl_fmStep (lines : List Str) : ∀ (acc : List (Str × Str)),
    (acc.map Prod.fst).Nodup → ((lines.foldl fmStep acc).map Prod.fst).Nodup := by
  induction lines with
  | nil => intro acc h; exact h
  | cons line lines' ih =>
    intro acc h
    rw [List.foldl_cons]
    rcases hl : parseFmLine line with _ | ⟨k, v⟩
    · rw [fmStep_none acc line hl]
      exact ih acc h
    · rw [fmStep_some acc line k v hl]
      exact ih _ (upsert_keys_nodup acc k v h)

/-- All the cleanliness facts about `parseFrontmatter` output at once. -/
theorem parseFrontmatter_clean (content : Str) :
    (∀ p ∈ (parseFrontmatter content).1, '\n' ∉ p.1 ∧ ':' ∉ p.1 ∧ trimStr p.1 = p.1 ∧
      '\n' ∉ p.2 ∧ trimStr p.2 = p.2) ∧
    (((parseFrontmatter content).1.map Prod.fst).Nodup) := by
  rw [parseFrontmatter]
  rcases hm : fmMatch content with _ | ⟨fmText, body⟩
  · simp
  · constructor
    · intro p hp
      rcases mem_foldl_fmStep (splitOnNl fmText) [] p hp with h | ⟨line, hline, h⟩
      · simp at h
      · have hnl := splitOnNl_no_nl fmText line hline
        have := parseFmLine_clean line p.1 p.2 hnl h
        exact this
    · exact nodup_foldl_fmStep (splitOnNl fmText) [] (by simp)

/-! ## The processing ledger (`NetworkStateManager`, src/graph/state.ts)

`fs`/`JSON.parse` effects are modelled as an explicit `LoadInput`: the file can
be absent, unreadable, undecodable, or decoded into a `ParsedLedger` whose
`version` field may be missing.  `new Date().toISOString()` is an explicit
`now` argument. -/

def STATE_VERSION : Int := 1

structure NetworkState where
  processedIds : List (Str × Str)
  lastScanAt : Option Str
  version : Int
deriving DecidableEq

def freshState : NetworkState := ⟨[], none, STATE_VERSION⟩

structure ParsedLedger where
  processedIds : List (Str × Str)
  lastScanAt : Option Str
  version : Option Int
deriving DecidableEq

inductive LoadInput
  | absent
  | readError
  | badJson
  | parsed (p : ParsedLedger)
deriving DecidableEq

/-- `load()` (lines 25–39): returns the resulting state and whether a warning
was logged.  `absent` falls through the `existsSync` guard silently;
`readError`/`badJson` hit the `catch`; a decoded ledger is returned as-is only
when its version matches. -/
def loadLedger : LoadInput → NetworkState × Bool
  | .absent => (freshState, false)
  | .readError => (freshState, true)
  | .badJson => (freshState, true)
  | .parsed p =>
    if p.version = some STATE_VERSION then
      (⟨p.processedIds, p.lastScanAt, STATE_VERSION⟩, false)
    else (freshState, true)

/-- `isProcessed(resourceId)`: `resourceId in this.state.processedIds`. -/
def isProcessed (s : NetworkState) (id : Str) : Bool :=
  (alookup s.processedIds id).isSome

/-- `markProcessed(resourceIds)`: insert each absent id with the current
timestamp, counting the newly added ones. -/
def markProcessed (s : NetworkState) (ids : List Str) (now : Str) : NetworkState × Nat :=
  let r := ids.foldl (fun (p : List (Str × Str) × Nat) id =>
    if (alookup p.1 id).isSome then p else (p.1 ++ [(id, now)], p.2 + 1)) (s.processedIds, 0)
  ({ s with processedIds := r.1 }, r.2)

def updateLastScan (s : NetworkState) (now : Str) : NetworkState :=
  { s with lastScanAt := some now }

def getProcessedCount (s : NetworkState) : Nat := s.processedIds.length

/-- The ids of `ids` not yet in `keys`, first occurrence each. -/
def freshIds (keys : List Str) : List Str → List Str
  | [] => []
  | id :: r => if id ∈ keys then freshIds keys r else id :: freshIds (keys ++ [id]) r

theorem mem_freshIds (ids : List Str) : ∀ (keys : List Str) (x : Str),
    x ∈ freshIds keys ids ↔ x ∈ ids ∧ x ∉ keys := by
  induction ids with
  | nil => intro keys x; simp [freshIds]
  | cons id rest ih =>
    intro keys x
    by_cases hid : id ∈ keys
    · rw [freshIds, if_pos hid, ih]
      constructor
      · rintro ⟨h1, h2⟩
        exact ⟨List.mem_cons_of_mem _ h1, h2⟩
      · rintro ⟨h1, h2⟩
        rcases List.mem_cons.mp h1 with h | h
        · subst h; exact absurd hid h2
        · exact ⟨h, h2⟩
    · rw [freshIds, if_neg hid]
      simp only [List.mem_cons, ih]
      constructor
      · rintro (h | ⟨h1, h2⟩)
        · subst h; exact ⟨Or.inl rfl, hid⟩
        · simp only [List.mem_append, List.mem_singleton] at h2
          push_neg at h2
          exact ⟨Or.inr h1, h2.1⟩
      · rintro ⟨h | h, h2⟩
        · subst h; exact Or.inl rfl
        · by_cases hx : x = id
          · exact Or.inl hx
          · refine Or.inr ⟨h, ?_⟩
            simp only [List.mem_append, List.mem_singleton]
            push_neg
            exact ⟨h2, hx⟩

theorem markFold (ids : List Str) : ∀ (m : List (Str × Str)) (c : Nat) (now : Str),
    ids.foldl (fun (p : List (Str × Str) × Nat) id =>
      if (alookup p.1 id).isSome then p else (p.1 ++ [(id, now)], p.2 + 1)) (m, c)
    = (m ++ (freshIds (m.map Prod.fst) ids).map (fun id => (id, now)),
        c + (freshIds (m.map Prod.fst) ids).length) := by
  induction ids with
  | nil => intro m c now; simp [freshIds]
  | cons id rest ih =>
    intro m c now
    rw [List.foldl_cons]
    by_cases hid : id ∈ m.map Prod.fst
    · have hs : (alookup m id).isSome := alookup_isSome_of_memKeys m id hid
      rw [if_pos hs, freshIds, if_pos hid, ih]
    · have hs : alookup m id = none := alookup_eq_none_of_not_memKeys m id hid
      rw [if_neg (by rw [hs]; simp), freshIds, if_neg hid, ih]
      have hkeys : (m ++ [(id, now)]).map Prod.fst = m.map Prod.fst ++ [id] := by simp
      rw [hkeys]
      rw [Prod.mk.injEq]
      constructor
      · simp
      · simp only [List.map_cons, List.length_cons]
        omega

/-- `markProcessed` unfolded: appends exactly the fresh ids (in first-occurrence
order, each with `now`) and returns their count. -/
theorem markProcessed_spec (s : NetworkState) (ids : List Str) (now : Str) :
    markProcessed s ids now =
      ({ s with processedIds := s.processedIds ++
          (freshIds (s.processedIds.map Prod.fst) ids).map (fun id => (id, now)) },
        (freshIds (s.processedIds.map Prod.fst) ids).length) := by
  rw [markProcessed, markFold]
  simp

/-! ## The memory scanner (`scanMemories`, src/graph/state.ts lines 171–210)

The remote listing (`client.listMemories()`) is a parameter; so is the result
of the awaited `client.getMemory` try/catch (a total summary oracle — the
`catch` branch makes the in-code computation total, yielding
`"(content unavailable)"` on failure). -/

inductive MVal
  | b (v : Bool)
  | s (v : Str)
  | other
deriving DecidableEq

structure MemListing where
  resourceId : Str
  source : Str
  title : Option Str
  metadata : Option (List (Str × MVal))
deriving DecidableEq

structure ScannedMemory where
  resourceId : Str
  source : Str
  title : Option Str
  summary : Str
deriving DecidableEq

def mdLookup (md : Option (List (Str × MVal))) (key : Str) : Option MVal :=
  match md with
  | none => none
  | some m => alookup m key

/-- `mem.metadata?.graph_entity === "true" || mem.metadata?.graph_entity === true`. -/
def isGraphEntityFlag (md : Option (List (Str × MVal))) : Bool :=
  mdLookup md "graph_entity".data = some (.s "true".data) ||
    mdLookup md "graph_entity".data = some (.b true)

/-- `(mem.metadata?.status as string) !== "completed"` is the *skip* condition;
this is its negation. -/
def statusCompleted (md : Option (List (Str × MVal))) : Bool :=
  mdLookup md "status".data = some (.s "completed".data)

def mkScanned (fetchSummary : Str → Str → Str) (m : MemListing) : ScannedMemory :=
  ⟨m.resourceId, m.source, m.title, (fetchSummary m.resourceId m.source).take 1000⟩

def scanLoop (st : NetworkState) (fetchSummary : Str → Str → Str) (batchSize : Nat) :
    List MemListing → List ScannedMemory → List ScannedMemory
  | [], acc => acc
  | m :: rest, acc =>
    if isProcessed st m.resourceId then scanLoop st fetchSummary batchSize rest acc
    else if isGraphEntityFlag m.metadata then scanLoop st fetchSummary batchSize rest acc
    else if statusCompleted m.metadata = false then scanLoop st fetchSummary batchSize rest acc
    else
      let acc' := acc ++ [mkScanned fetchSummary m]
      if batchSize ≤ acc'.length then acc' else scanLoop st fetchSummary batchSize rest acc'

def scanMemories (mems : List MemListing) (st : NetworkState)
    (fetchSummary : Str → Str → Str) (batchSize : Nat) : List ScannedMemory :=
  scanLoop st fetchSummary batchSize mems []

/-- `completeMemories` (lines 327–332): mark, update last scan, save. -/
def completeMemories (s : NetworkState) (memoryIds : List Str) (now : Str) :
    NetworkState × Nat × Nat :=
  let (s1, newCount) := markProcessed s memoryIds now
  let s2 := updateLastScan s1 now
  (s2, newCount, getProcessedCount s2)

/-! ## The entity writer (`writeEntity`, src/graph/state.ts lines 228–325)

`fs.readFileSync` of the target path is a parameter (`existing : Option Str`,
`none` when `existsSync` is false); `new Date().toISOString()` is `now`.
Optional string parameters (`email`, `phone`, `domain`) carry JS truthiness:
the code only tests `if (params.email)`, under which `undefined` and `""` act
alike, so they are modelled as `Str` with `[]` for absent/empty. -/

inductive EntityType
  | people
  | projects
  | organizations
  | topics
deriving DecidableEq

def typeDir : EntityType → Str
  | .people => "people".data
  | .projects => "projects".data
  | .organizations => "organizations".data
  | .topics => "topics".data

structure WriteEntityParams where
  type : EntityType
  slug : Str
  name : Str
  description : Str
  relationships : List Str
  sourceMemories : List (Str × List Str)
  email : Str
  phone : Str
  domain : Str
deriving DecidableEq

/-- The three values carried over from an existing entity file
(lines 236–259). -/
structure ExistingData where
  hyperspellId : Str
  sourceMemories : List (Str × List Str)
  relationships : List Str
deriving DecidableEq

/-- Line 250: `if (key === "hyperspell_id") hyperspellId = val`. -/
def extractHid (ex : ExistingData) (k v : Str) : ExistingData :=
  if k = "hyperspell_id".data then { ex with hyperspellId := v } else ex

/-- Lines 251–253: `try { existingSourceMemories = JSON.parse(val) } catch {}`. -/
def extractSm (ex : ExistingData) (k v : Str) : ExistingData :=
  if k = "source_memories".data then
    match jsonParseSM v with
    | some m => { ex with sourceMemories := m }
    | none => ex
  else ex

/-- Lines 254–256. -/
def extractRel (ex : ExistingData) (k v : Str) : ExistingData :=
  if k = "relationships".data then
    match jsonParseArr v with
    | some l => { ex with relationships := l }
    | none => ex
  else ex

/-- One line of the existing file's frontmatter (lines 245–257): the three
`if (key === ...)` updates in order, with `JSON.parse` failures keeping the
previous value. -/
def extractLine (ex : ExistingData) (line : Str) : ExistingData :=
  match parseFmLine line with
  | none => ex
  | some (k, v) => extractRel (extractSm (extractHid ex k v) k v) k v

def emptyExisting : ExistingData := ⟨[], [], []⟩

def extractExisting : Option Str → ExistingData
  | none => emptyExisting
  | some content =>
    match fmMatch content with
    | none => emptyExisting
    | some (fmText, _) => (splitOnNl fmText).foldl extractLine emptyExisting

/-- Lines 261–269: per-source union via `[...new Set([...existing, ...ids])]`. -/
def mergeSources (existing ps : List (Str × List Str)) : List (Str × List Str) :=
  ps.foldl (fun m p => upsert m p.1 (jsDedup ((alookup m p.1).getD [] ++ p.2))) existing

/-- Lines 271–274. -/
def mergeRels (ex ps : List Str) : List Str := jsDedup (ex ++ ps)

/-- Lines 277–283: the five unconditional frontmatter fields, in insertion
order. -/
def writeEntityFmBase (p : WriteEntityParams) (ex : ExistingData) (now : Str) :
    List (Str × Str) :=
  [("title".data, p.name),
   ("type".data, (typeDir p.type).dropLast),
   ("graph_entity".data, "true".data),
   ("source_memories".data, encodeJSM (mergeSources ex.sourceMemories p.sourceMemories)),
   ("last_extracted".data, now)]

/-- Line 284: `if (hyperspellId) fm.hyperspell_id = hyperspellId`. -/
def hidBlock (ex : ExistingData) : List (Str × Str) :=
  if ex.hyperspellId ≠ [] then [("hyperspell_id".data, ex.hyperspellId)] else []

/-- Lines 285–287. -/
def relsBlock (p : WriteEntityParams) (ex : ExistingData) : List (Str × Str) :=
  if mergeRels ex.relationships p.relationships ≠ [] then
    [("relationships".data, encodeJArr (mergeRels ex.relationships p.relationships))]
  else []

/-- Line 288. -/
def emailBlock (p : WriteEntityParams) : List (Str × Str) :=
  if p.email ≠ [] then [("email".data, p.email)] else []

/-- Line 289. -/
def phoneBlock (p : WriteEntityParams) : List (Str × Str) :=
  if p.phone ≠ [] then [("phone".data, p.phone)] else []

/-- Line 290. -/
def domainBlock (p : WriteEntityParams) : List (Str × Str) :=
  if p.domain ≠ [] then [("domain".data, p.domain)] else []

/-- The frontmatter record built at lines 277–290, in insertion order. -/
def writeEntityFm (p : WriteEntityParams) (ex : ExistingData) (now : Str) :
    List (Str × Str) :=
  writeEntityFmBase p ex now ++ hidBlock ex ++ relsBlock p ex
    ++ emailBlock p ++ phoneBlock p ++ domainBlock p

def splitOnColon : Str → List Str
  | [] => [[]]
  | c :: r =>
    if c = ':' then [] :: splitOnColon r
    else
      match splitOnColon r with
      | h :: t => (c :: h) :: t
      | [] => [[c]]

def splitOnSlash : Str → List Str
  | [] => [[]]
  | c :: r =>
    if c = '/' then [] :: splitOnSlash r
    else
      match splitOnSlash r with
      | h :: t => (c :: h) :: t
      | [] => [[c]]

/-- Lines 306–314: one relationship bullet.  `rel.split(":")` destructures to
`[relationship, target]`; a missing or empty target gives a bare bullet; else
the readable name is the last `/`-segment with hyphens spaced (falling back to
the whole target when that segment is empty). -/
def renderRel (rel : Str) : Str :=
  match splitOnColon rel with
  | [] => "- ".data ++ rel
  | [_] => "- ".data ++ rel
  | relationship :: target :: _ =>
    if target = [] then "- ".data ++ rel
    else
      let popped := (splitOnSlash target).getLastD []
      let replaced := popped.map (fun c => if c = '-' then ' ' else c)
      let targetName := if replaced = [] then target else replaced
      "- ".data ++ relationship ++ ": [".data ++ targetName ++ "](../".data ++
        target ++ ".md)".data

/-- Lines 292–315: the body parts, later joined with `\n`. -/
def writeEntityBodyParts (p : WriteEntityParams) (mr : List Str) : List Str :=
  let contactParts : List Str :=
    (if p.email ≠ [] then ["- Email: ".data ++ p.email] else [])
    ++ (if p.phone ≠ [] then ["- Phone: ".data ++ p.phone] else [])
    ++ (if p.domain ≠ [] then ["- Domain: ".data ++ p.domain] else [])
  ["# ".data ++ p.name ++ ['\n'], p.description]
  ++ (if contactParts ≠ [] then "\n## Contact\n".data :: contactParts else [])
  ++ (if mr ≠ [] then "\n## Relationships\n".data :: mr.map renderRel else [])

/-- Line 319: `---\n${fmLines.join("\n")}\n---\n${bodyParts.join("\n")}\n`. -/
def writeEntityContentOf (p : WriteEntityParams) (ex : ExistingData) (now : Str) : Str :=
  serializeFrontmatter (writeEntityFm p ex now)
    ++ joinNl (writeEntityBodyParts p (mergeRels ex.relationships p.relationships))
    ++ ['\n']

/-- `writeEntity`: the full rewritten file contents, as a function of the
existing file contents (if any). -/
def writeEntityContent (p : WriteEntityParams) (existing : Option Str) (now : Str) : Str :=
  writeEntityContentOf p (extractExisting existing) now

/-- Line 324: the returned `${params.type}/${slug}.md`. -/
def writeEntityPath (p : WriteEntityParams) : Str :=
  typeDir p.type ++ '/' :: (slugify p.slug ++ ".md".data)

/-! ## The sync pusher (src/sync/markdown.ts)

`client.addMemory` is an oracle `upload : UploadArgs → Except Str Str`
returning the remote `resourceId` or an error message.  File reads/writes are
explicit: `syncMarkdownFile` takes the file's current contents and returns the
(possibly rewritten) contents, along with the upload call it made. -/

structure MarkdownFile where
  title : Str
  content : Str
  hyperspellId : Option Str
deriving DecidableEq

def basename (p : Str) : Str := (splitOnSlash p).getLastD p

/-- `path.basename(filePath, ".md")`. -/
def basenameNoMd (p : Str) : Str :=
  let b := basename p
  if hasPre ('d' :: 'm' :: '.' :: []) b.reverse then b.take (b.length - 3) else b

/-- `readMarkdownFile` (lines 51–67), with the file contents supplied. -/
def readMarkdownFile (filePath content : Str) : MarkdownFile :=
  let parsed := parseFrontmatter content
  { title :=
      match alookup parsed.1 "title".data with
      | some t => if t = [] then basenameNoMd filePath else t
      | none => basenameNoMd filePath
    content := trimStr parsed.2
    hyperspellId :=
      match alookup parsed.1 "hyperspell_id".data with
      | some v => if v = [] then none else some v
      | none => none }

/-- `updateFrontmatterId` (lines 72–86): set `frontmatter.hyperspell_id` and
rewrite the file as serialized frontmatter plus the unchanged body. -/
def updateFrontmatterId (content : Str) (hyperspellId : Str) : Str :=
  let parsed := parseFrontmatter content
  serializeFrontmatter (upsert parsed.1 "hyperspell_id".data hyperspellId) ++ parsed.2

structure UploadArgs where
  content : Str
  title : Str
  resourceId : Option Str
  collection : Str
deriving DecidableEq

structure SyncResult where
  success : Bool
  resourceId : Option Str
  error : Option Str
deriving DecidableEq

/-- `syncMarkdownFile` (lines 112–147): returns the result, the file contents
after the call, and the upload call made (if any). -/
def syncMarkdownFile (upload : UploadArgs → Except Str Str) (filePath content : Str) :
    SyncResult × Str × Option UploadArgs :=
  let file := readMarkdownFile filePath content
  if file.content = [] then
    (⟨false, none, some "File has no content".data⟩, content, none)
  else
    let args : UploadArgs := ⟨file.content, file.title, file.hyperspellId, "openclaw".data⟩
    match upload args with
    | .error e => (⟨false, none, some e⟩, content, some args)
    | .ok rid =>
      (⟨true, some rid, none⟩,
        if file.hyperspellId = some rid then content else updateFrontmatterId content rid,
        some args)

inductive MemoryDirState
  | missing
  | readError
  | entries (names : List Str)
deriving DecidableEq

def pathJoin (a b : Str) : Str := a ++ '/' :: b

def endsWithMd (name : Str) : Bool := hasPre ('d' :: 'm' :: '.' :: []) name.reverse

/-- `getMemoryFiles` (lines 91–107): `readdirSync` of `<workspace>/memory`
(NOT recursive — it lists only the directory's own entries), keep names ending
in `.md`, join with the directory path.  A missing directory or a read error
yields `[]`. -/
def getMemoryFiles (workspaceDir : Str) (dir : MemoryDirState) : List Str :=
  match dir with
  | .missing => []
  | .readError => []
  | .entries names =>
    (names.filter endsWithMd).map (fun f => pathJoin (pathJoin workspaceDir "memory".data) f)

structure SyncStats where
  synced : Nat
  failed : Nat
  errors : List Str
deriving DecidableEq

/-- `syncAllMemoryFiles` (lines 152–173), with per-file contents supplied by
`fileContents`. -/
def syncAllMemoryFiles (upload : UploadArgs → Except Str Str) (workspaceDir : Str)
    (dir : MemoryDirState) (fileContents : Str → Str) : SyncStats :=
  (getMemoryFiles workspaceDir dir).foldl (fun st f =>
    let res := (syncMarkdownFile upload f (fileContents f)).1
    if res.success then { st with synced := st.synced + 1 }
    else { st with
      failed := st.failed + 1
      errors := st.errors ++ [basename f ++ ": ".data ++ res.error.getD []] })
    ⟨0, 0, []⟩

/-! ## Key uniqueness through parsing, extraction and merging -/

theorem jObjItemsGo_nodup : ∀ (fuel : Nat) (acc : List (Str × List Str)) (s : Str)
    (m : List (Str × List Str)) (rest : Str),
    (acc.map Prod.fst).Nodup → jObjItemsGo fuel acc s = some (m, rest) →
    (m.map Prod.fst).Nodup := by
  intro fuel
  induction fuel with
  | zero =>
    intro acc s m rest _ h
    rw [jObjItemsGo] at h
    cases h
  | succ f ih =>
    intro acc s m rest hacc h
    rw [jObjItemsGo] at h
    rcases hps : parseJString (skipJWs s) with _ | ⟨key, r⟩
    · rw [hps] at h; simp at h
    · rw [hps] at h
      have h1 : (match skipJWs r with
          | [] => none
          | c0 :: r2 =>
            if c0 = ':' then
              match parseJArr (f + 1) r2 with
              | none => none
              | some (items, r3) =>
                match skipJWs r3 with
                | [] => none
                | c :: r4 =>
                  if c = ',' then jObjItemsGo f (upsert acc key items) r4
                  else if c = rbrace then some (upsert acc key items, r4)
                  else none
            else none) = some (m, rest) := h
      clear h
      rcases hr : skipJWs r with _ | ⟨c0, r2⟩
      · rw [hr] at h1; simp at h1
      · rw [hr] at h1
        have h2 : (if c0 = ':' then
            (match parseJArr (f + 1) r2 with
              | none => none
              | some (items, r3) =>
                match skipJWs r3 with
                | [] => none
                | c :: r4 =>
                  if c = ',' then jObjItemsGo f (upsert acc key items) r4
                  else if c = rbrace then some (upsert acc key items, r4)
                  else none)
            else none) = some (m, rest) := h1
        clear h1
        by_cases hc0 : c0 = ':'
        · rw [if_pos hc0] at h2
          rcases hpa : parseJArr (f + 1) r2 with _ | ⟨items, r3⟩
          · rw [hpa] at h2; simp at h2
          · rw [hpa] at h2
            have h3 : (match skipJWs r3 with
                | [] => none
                | c :: r4 =>
                  if c = ',' then jObjItemsGo f (upsert acc key items) r4
                  else if c = rbrace then some (upsert acc key items, r4)
                  else none) = some (m, rest) := h2
            clear h2
            rcases hr3 : skipJWs r3 with _ | ⟨c, r4⟩
            · rw [hr3] at h3; simp at h3
            · rw [hr3] at h3
              have h4 : (if c = ',' then jObjItemsGo f (upsert acc key items) r4
                  else if c = rbrace then some (upsert acc key items, r4)
                  else none) = some (m, rest) := h3
              clear h3
              by_cases hcc : c = ','
              · rw [if_pos hcc] at h4
                exact ih (upsert acc key items) r4 m rest
                  (upsert_keys_nodup acc key items hacc) h4
              · rw [if_neg hcc] at h4
                by_cases hcb : c = rbrace
                · rw [if_pos hcb, Option.some.injEq] at h4
                  have hm : m = upsert acc key items := by
                    have := congrArg Prod.fst h4.symm
                    simpa using this
                  subst hm
                  exact upsert_keys_nodup acc key items hacc
                · rw [if_neg hcb] at h4
                  cases h4
        · rw [if_neg hc0] at h2
          cases h2

theorem jsonParseSM_nodup (v : Str) (m : List (Str × List Str))
    (h : jsonParseSM v = some m) : (m.map Prod.fst).Nodup := by
  rw [jsonParseSM] at h
  rcases hs : skipJWs v with _ | ⟨c, r⟩
  · rw [hs, jsonParseSMTop] at h
    cases h
  · rw [hs, jsonParseSMTop] at h
    by_cases hc : c = lbrace
    · rw [if_pos hc, jsonParseSMBody] at h
      rcases hr : skipJWs r with _ | ⟨d, r2⟩
      · rw [hr, jsonParseSMBody2] at h
        cases h
      · rw [hr, jsonParseSMBody2] at h
        by_cases hd : d = rbrace
        · rw [if_pos hd] at h
          by_cases he : skipJWs r2 = []
          · rw [if_pos he, Option.some.injEq] at h
            subst h
            simp
          · rw [if_neg he] at h
            cases h
        · rw [if_neg hd] at h
          rcases ho : jObjItemsGo (v.length + 1) [] r with _ | ⟨mm, rest⟩
          · rw [ho] at h; simp at h
          · rw [ho] at h
            have h2 : (if skipJWs rest = [] then some mm else none) = some m := by
              rw [← h]
            by_cases hrest : skipJWs rest = []
            · rw [if_pos hrest, Option.some.injEq] at h2
              subst h2
              exact jObjItemsGo_nodup _ [] r mm rest (by simp) ho
            · rw [if_neg hrest] at h2
              cases h2
    · rw [if_neg hc] at h
      cases h

theorem extractHid_sm (ex : ExistingData) (k v : Str) :
    (extractHid ex k v).sourceMemories = ex.sourceMemories := by
  rw [extractHid]
  split <;> rfl

theorem extractRel_sm (ex : ExistingData) (k v : Str) :
    (extractRel ex k v).sourceMemories = ex.sourceMemories := by
  rw [extractRel]
  split
  · split <;> rfl
  · rfl

theorem extractSm_sm_nodup (ex : ExistingData) (k v : Str)
    (h : (ex.sourceMemories.map Prod.fst).Nodup) :
    ((extractSm ex k v).sourceMemories.map Prod.fst).Nodup := by
  rw [extractSm]
  split
  · rcases hj : jsonParseSM v with _ | mm
    · exact h
    · simpa using jsonParseSM_nodup v mm hj
  · exact h

theorem extractLine_sm_nodup (ex : ExistingData) (line : Str)
    (h : (ex.sourceMemories.map Prod.fst).Nodup) :
    ((extractLine ex line).sourceMemories.map Prod.fst).Nodup := by
  rw [extractLine]
  rcases hl : parseFmLine line with _ | ⟨k, v⟩
  · exact h
  · rw [extractRel_sm]
    refine extractSm_sm_nodup _ k v ?_
    rw [extractHid_sm]
    exact h

theorem extractExisting_sm_nodup (oc : Option Str) :
    ((extractExisting oc).sourceMemories.map Prod.fst).Nodup := by
  have hfold : ∀ (lines : List Str) (ex : ExistingData),
      (ex.sourceMemories.map Prod.fst).Nodup →
      ((lines.foldl extractLine ex).sourceMemories.map Prod.fst).Nodup := by
    intro lines
    induction lines with
    | nil => intro ex h; exact h
    | cons line rest ih =>
      intro ex h
      rw [List.foldl_cons]
      exact ih _ (extractLine_sm_nodup ex line h)
  cases oc with
  | none => simp [extractExisting, emptyExisting]
  | some c =>
    rw [extractExisting]
    rcases hm : fmMatch c with _ | ⟨fmText, body⟩
    · simp [emptyExisting]
    · exact hfold _ emptyExisting (by simp [emptyExisting])

theorem mergeSources_nodup (ps : List (Str × List Str)) :
    ∀ (ex : List (Str × List Str)), ((ex.map Prod.fst).Nodup) →
    (((mergeSources ex ps).map Prod.fst).Nodup) := by
  induction ps with
  | nil => intro ex h; exact h
  | cons p ps' ih =>
    intro ex h
    rw [mergeSources, List.foldl_cons]
    exact ih _ (upsert_keys_nodup ex p.1 _ h)

/-! ## Merge semantics: per-source set union -/

/-- `id` is among the memory ids recorded for `src` in the mapping `m`. -/
def smHas (m : List (Str × List Str)) (src id : Str) : Prop :=
  id ∈ (alookup m src).getD []

theorem mergeSources_cons (ex : List (Str × List Str)) (k : Str) (ids : List Str)
    (ps : List (Str × List Str)) :
    mergeSources ex ((k, ids) :: ps)
      = mergeSources (upsert ex k (jsDedup ((alookup ex k).getD [] ++ ids))) ps := by
  rw [mergeSources, List.foldl_cons]
  rfl

theorem mergeSources_mem (ps : List (Str × List Str)) :
    ∀ (ex : List (Str × List Str)) (src id : Str), (ps.map Prod.fst).Nodup →
    (smHas (mergeSources ex ps) src id ↔ smHas ex src id ∨ smHas ps src id) := by
  induction ps with
  | nil =>
    intro ex src id _
    rw [mergeSources]
    simp [smHas, alookup]
  | cons p ps' ih =>
    intro ex src id hnd
    obtain ⟨k, ids⟩ := p
    simp only [List.map_cons] at hnd
    have hk : k ∉ ps'.map Prod.fst := (List.nodup_cons.mp hnd).1
    have hnd' : (ps'.map Prod.fst).Nodup := (List.nodup_cons.mp hnd).2
    rw [mergeSources_cons, ih _ src id hnd']
    by_cases hsrc : src = k
    · subst hsrc
      have h1 : smHas (upsert ex src (jsDedup ((alookup ex src).getD [] ++ ids))) src id
          ↔ smHas ex src id ∨ id ∈ ids := by
        rw [smHas, alookup_upsert, if_pos rfl]
        simp only [Option.getD_some]
        rw [mem_jsDedup, List.mem_append]
        rfl
      have h2 : ¬ smHas ps' src id := by
        rw [smHas, alookup_eq_none_of_not_memKeys ps' src hk]
        simp
      have h3 : smHas ((src, ids) :: ps') src id ↔ id ∈ ids := by
        rw [smHas, alookup_cons, if_pos rfl]
        simp
      rw [h1, h3]
      constructor
      · rintro (h | h)
        · rcases h with h | h
          · exact Or.inl h
          · exact Or.inr h
        · exact absurd h h2
      · rintro (h | h)
        · exact Or.inl (Or.inl h)
        · exact Or.inl (Or.inr h)
    · have h1 : smHas (upsert ex k (jsDedup ((alookup ex k).getD [] ++ ids))) src id
          ↔ smHas ex src id := by
        rw [smHas, alookup_upsert, if_neg (fun he => hsrc he.symm)]
        rfl
      have h3 : smHas ((k, ids) :: ps') src id ↔ smHas ps' src id := by
        rw [smHas, alookup_cons, if_neg (fun he => hsrc he.symm)]
        rfl
      rw [h1, h3]

theorem mergeRels_mem (ex ps : List Str) (e : Str) :
    e ∈ mergeRels ex ps ↔ e ∈ ex ∨ e ∈ ps := by
  rw [mergeRels, mem_jsDedup, List.mem_append]

theorem jsDedup_eq_nil {α : Type} [DecidableEq α] (l : List α) :
    jsDedup l = [] ↔ l = [] := by
  cases l with
  | nil => simp [jsDedup, jsDedupGo]
  | cons a r =>
    constructor
    · intro h
      rw [jsDedup, jsDedupGo, if_neg (by simp)] at h
      cases h
    · intro h
      cases h

/-! ### Field lookups in the frontmatter written by `writeEntity` -/

theorem alookup_append_none {α : Type} (m₁ m₂ : List (Str × α)) (key : Str)
    (h : alookup m₁ key = none) : alookup (m₁ ++ m₂) key = alookup m₂ key := by
  rw [alookup_append, h]

theorem alookup_append_some {α : Type} (m₁ m₂ : List (Str × α)) (key : Str) (v : α)
    (h : alookup m₁ key = some v) : alookup (m₁ ++ m₂) key = some v := by
  rw [alookup_append, h]

theorem writeEntityFmBase_lookup (p : WriteEntityParams) (ex : ExistingData) (now : Str)
    (key : Str) (h1 : "title".data ≠ key) (h2 : "type".data ≠ key)
    (h3 : "graph_entity".data ≠ key) (h4 : "source_memories".data ≠ key)
    (h5 : "last_extracted".data ≠ key) :
    alookup (writeEntityFmBase p ex now) key = none := by
  rw [writeEntityFmBase]
  rw [alookup_cons, if_neg h1, alookup_cons, if_neg h2, alookup_cons, if_neg h3,
    alookup_cons, if_neg h4, alookup_cons, if_neg h5]
  rfl

theorem hidBlock_lookup_other (ex : ExistingData) (key : Str)
    (h : "hyperspell_id".data ≠ key) : alookup (hidBlock ex) key = none := by
  rw [hidBlock]
  split
  · rw [alookup_cons, if_neg h]; rfl
  · rfl

theorem hidBlock_lookup_self (ex : ExistingData) :
    alookup (hidBlock ex) "hyperspell_id".data
      = if ex.hyperspellId = [] then none else some ex.hyperspellId := by
  rw [hidBlock]
  by_cases hh : ex.hyperspellId = []
  · rw [if_neg (by simp [hh]), if_pos hh]
    rfl
  · rw [if_pos hh, if_neg hh, alookup_cons, if_pos rfl]

theorem relsBlock_lookup_other (p : WriteEntityParams) (ex : ExistingData) (key : Str)
    (h : "relationships".data ≠ key) : alookup (relsBlock p ex) key = none := by
  rw [relsBlock]
  split
  · rw [alookup_cons, if_neg h]; rfl
  · rfl

theorem relsBlock_lookup_self (p : WriteEntityParams) (ex : ExistingData) :
    alookup (relsBlock p ex) "relationships".data
      = if mergeRels ex.relationships p.relationships = [] then none
        else some (encodeJArr (mergeRels ex.relationships p.relationships)) := by
  rw [relsBlock]
  by_cases hh : mergeRels ex.relationships p.relationships = []
  · rw [if_neg (by simp [hh]), if_pos hh]
    rfl
  · rw [if_pos hh, if_neg hh, alookup_cons, if_pos rfl]

theorem emailBlock_lookup_other (p : WriteEntityParams) (key : Str)
    (h : "email".data ≠ key) : alookup (emailBlock p) key = none := by
  rw [emailBlock]
  split
  · rw [alookup_cons, if_neg h]; rfl
  · rfl

theorem emailBlock_lookup_self (p : WriteEntityParams) :
    alookup (emailBlock p) "email".data
      = if p.email = [] then none else some p.email := by
  rw [emailBlock]
  by_cases hh : p.email = []
  · rw [if_neg (by simp [hh]), if_pos hh]
    rfl
  · rw [if_pos hh, if_neg hh, alookup_cons, if_pos rfl]

theorem phoneBlock_lookup_other (p : WriteEntityParams) (key : Str)
    (h : "phone".data ≠ key) : alookup (phoneBlock p) key = none := by
  rw [phoneBlock]
  split
  · rw [alookup_cons, if_neg h]; rfl
  · rfl

theorem phoneBlock_lookup_self (p : WriteEntityParams) :
    alookup (phoneBlock p) "phone".data
      = if p.phone = [] then none else some p.phone := by
  rw [phoneBlock]
  by_cases hh : p.phone = []
  · rw [if_neg (by simp [hh]), if_pos hh]
    rfl
  · rw [if_pos hh, if_neg hh, alookup_cons, if_pos rfl]

theorem domainBlock_lookup_other (p : WriteEntityParams) (key : Str)
    (h : "domain".data ≠ key) : alookup (domainBlock p) key = none := by
  rw [domainBlock]
  split
  · rw [alookup_cons, if_neg h]; rfl
  · rfl

theorem domainBlock_lookup_self (p : WriteEntityParams) :
    alookup (domainBlock p) "domain".data
      = if p.domain = [] then none else some p.domain := by
  rw [domainBlock]
  by_cases hh : p.domain = []
  · rw [if_neg (by simp [hh]), if_pos hh]
    rfl
  · rw [if_pos hh, if_neg hh, alookup_cons, if_pos rfl]

theorem writeEntityFm_lookup_sm (p : WriteEntityParams) (ex : ExistingData) (now : Str) :
    alookup (writeEntityFm p ex now) "source_memories".data
      = some (encodeJSM (mergeSources ex.sourceMemories p.sourceMemories)) := by
  have hbase : alookup (writeEntityFmBase p ex now) "source_memories".data
      = some (encodeJSM (mergeSources ex.sourceMemories p.sourceMemories)) := by
    rw [writeEntityFmBase]
    rw [alookup_cons, if_neg (by decide), alookup_cons, if_neg (by decide),
      alookup_cons, if_neg (by decide), alookup_cons, if_pos rfl]
  rw [writeEntityFm]
  rw [alookup_append_some _ _ _ _ (alookup_append_some _ _ _ _ (alookup_append_some _ _ _ _
    (alookup_append_some _ _ _ _ (alookup_append_some _ _ _ _ hbase))))]

theorem writeEntityFm_lookup_title (p : WriteEntityParams) (ex : ExistingData) (now : Str) :
    alookup (writeEntityFm p ex now) "title".data = some p.name := by
  have hbase : alookup (writeEntityFmBase p ex now) "title".data = some p.name := by
    rw [writeEntityFmBase, alookup_cons, if_pos rfl]
  rw [writeEntityFm]
  rw [alookup_append_some _ _ _ _ (alookup_append_some _ _ _ _ (alookup_append_some _ _ _ _
    (alookup_append_some _ _ _ _ (alookup_append_some _ _ _ _ hbase))))]

theorem writeEntityFm_lookup_hid (p : WriteEntityParams) (ex : ExistingData) (now : Str) :
    alookup (writeEntityFm p ex now) "hyperspell_id".data
      = (if ex.hyperspellId = [] then none else some (ex.hyperspellId)) := by
  have hbase : alookup (writeEntityFmBase p ex now) "hyperspell_id".data = none :=
    writeEntityFmBase_lookup p ex now "hyperspell_id".data (by decide) (by decide) (by decide)
      (by decide) (by decide)
  rw [writeEntityFm]
  have h0 : alookup (writeEntityFmBase p ex now ++ hidBlock ex) "hyperspell_id".data = (if ex.hyperspellId = [] then none else some (ex.hyperspellId)) := by
    rw [alookup_append_none _ _ _ hbase]
    exact hidBlock_lookup_self ex
  have h1 : alookup (writeEntityFmBase p ex now ++ hidBlock ex ++ relsBlock p ex) "hyperspell_id".data = (if ex.hyperspellId = [] then none else some (ex.hyperspellId)) := by
    by_cases hc : ex.hyperspellId = []
    · rw [if_pos hc] at h0 ⊢
      rw [alookup_append_none _ _ _ h0]
      exact relsBlock_lookup_other p ex "hyperspell_id".data (by decide)
    · rw [if_neg hc] at h0 ⊢
      exact alookup_append_some _ _ _ _ h0
  have h2 : alookup (writeEntityFmBase p ex now ++ hidBlock ex ++ relsBlock p ex ++ emailBlock p) "hyperspell_id".data = (if ex.hyperspellId = [] then none else some (ex.hyperspellId)) := by
    by_cases hc : ex.hyperspellId = []
    · rw [if_pos hc] at h1 ⊢
      rw [alookup_append_none _ _ _ h1]
      exact emailBlock_lookup_other p "hyperspell_id".data (by decide)
    · rw [if_neg hc] at h1 ⊢
      exact alookup_append_some _ _ _ _ h1
  have h3 : alookup (writeEntityFmBase p ex now ++ hidBlock ex ++ relsBlock p ex ++ emailBlock p ++ phoneBlock p) "hyperspell_id".data = (if ex.hyperspellId = [] then none else some (ex.hyperspellId)) := by
    by_cases hc : ex.hyperspellId = []
    · rw [if_pos hc] at h2 ⊢
      rw [alookup_append_none _ _ _ h2]
      exact phoneBlock_lookup_other p "hyperspell_id".data (by decide)
    · rw [if_neg hc] at h2 ⊢
      exact alookup_append_some _ _ _ _ h2
  have h4 : alookup (writeEntityFmBase p ex now ++ hidBlock ex ++ relsBlock p ex ++ emailBlock p ++ phoneBlock p ++ domainBlock p) "hyperspell_id".data = (if ex.hyperspellId = [] then none else some (ex.hyperspellId)) := by
    by_cases hc : ex.hyperspellId = []
    · rw [if_pos hc] at h3 ⊢
      rw [alookup_append_none _ _ _ h3]
      exact domainBlock_lookup_other p "hyperspell_id".data (by decide)
    · rw [if_neg hc] at h3 ⊢
      exact alookup_append_some _ _ _ _ h3
  exact h4

theorem writeEntityFm_lookup_rels (p : WriteEntityParams) (ex : ExistingData) (now : Str) :
    alookup (writeEntityFm p ex now) "relationships".data
      = (if mergeRels ex.relationships p.relationships = [] then none else some (encodeJArr (mergeRels ex.relationships p.relationships))) := by
  have hbase : alookup (writeEntityFmBase p ex now) "relationships".data = none :=
    writeEntityFmBase_lookup p ex now "relationships".data (by decide) (by decide) (by decide)
      (by decide) (by decide)
  rw [writeEntityFm]
  have h0 : alookup (writeEntityFmBase p ex now ++ hidBlock ex) "relationships".data = none := by
    rw [alookup_append_none _ _ _ hbase]
    exact hidBlock_lookup_other ex "relationships".data (by decide)
  have h1 : alookup (writeEntityFmBase p ex now ++ hidBlock ex ++ relsBlock p ex) "relationships".data = (if mergeRels ex.relationships p.relationships = [] then none else some (encodeJArr (mergeRels ex.relationships p.relationships))) := by
    rw [alookup_append_none _ _ _ h0]
    exact relsBlock_lookup_self p ex
  have h2 : alookup (writeEntityFmBase p ex now ++ hidBlock ex ++ relsBlock p ex ++ emailBlock p) "relationships".data = (if mergeRels ex.relationships p.relationships = [] then none else some (encodeJArr (mergeRels ex.relationships p.relationships))) := by
    by_cases hc : mergeRels ex.relationships p.relationships = []
    · rw [if_pos hc] at h1 ⊢
      rw [alookup_append_none _ _ _ h1]
      exact emailBlock_lookup_other p "relationships".data (by decide)
    · rw [if_neg hc] at h1 ⊢
      exact alookup_append_some _ _ _ _ h1
  have h3 : alookup (writeEntityFmBase p ex now ++ hidBlock ex ++ relsBlock p ex ++ emailBlock p ++ phoneBlock p) "relationships".data = (if mergeRels ex.relationships p.relationships = [] then none else some (encodeJArr (mergeRels ex.relationships p.relationships))) := by
    by_cases hc : mergeRels ex.relationships p.relationships = []
    · rw [if_pos hc] at h2 ⊢
      rw [alookup_append_none _ _ _ h2]
      exact phoneBlock_lookup_other p "relationships".data (by decide)
    · rw [if_neg hc] at h2 ⊢
      exact alookup_append_some _ _ _ _ h2
  have h4 : alookup (writeEntityFmBase p ex now ++ hidBlock ex ++ relsBlock p ex ++ emailBlock p ++ phoneBlock p ++ domainBlock p) "relationships".data = (if mergeRels ex.relationships p.relationships = [] then none else some (encodeJArr (mergeRels ex.relationships p.relationships))) := by
    by_cases hc : mergeRels ex.relationships p.relationships = []
    · rw [if_pos hc] at h3 ⊢
      rw [alookup_append_none _ _ _ h3]
      exact domainBlock_lookup_other p "relationships".data (by decide)
    · rw [if_neg hc] at h3 ⊢
      exact alookup_append_some _ _ _ _ h3
  exact h4

theorem writeEntityFm_lookup_email (p : WriteEntityParams) (ex : ExistingData) (now : Str) :
    alookup (writeEntityFm p ex now) "email".data
      = (if p.email = [] then none else some (p.email)) := by
  have hbase : alookup (writeEntityFmBase p ex now) "email".data = none :=
    writeEntityFmBase_lookup p ex now "email".data (by decide) (by decide) (by decide)
      (by decide) (by decide)
  rw [writeEntityFm]
  have h0 : alookup (writeEntityFmBase p ex now ++ hidBlock ex) "email".data = none := by
    rw [alookup_append_none _ _ _ hbase]
    exact hidBlock_lookup_other ex "email".data (by decide)
  have h1 : alookup (writeEntityFmBase p ex now ++ hidBlock ex ++ relsBlock p ex) "email".data = none := by
    rw [alookup_append_none _ _ _ h0]
    exact relsBlock_lookup_other p ex "email".data (by decide)
  have h2 : alookup (writeEntityFmBase p ex now ++ hidBlock ex ++ relsBlock p ex ++ emailBlock p) "email".data = (if p.email = [] then none else some (p.email)) := by
    rw [alookup_append_none _ _ _ h1]
    exact emailBlock_lookup_self p
  have h3 : alookup (writeEntityFmBase p ex now ++ hidBlock ex ++ relsBlock p ex ++ emailBlock p ++ phoneBlock p) "email".data = (if p.email = [] then none else some (p.email)) := by
    by_cases hc : p.email = []
    · rw [if_pos hc] at h2 ⊢
      rw [alookup_append_none _ _ _ h2]
      exact phoneBlock_lookup_other p "email".data (by decide)
    · rw [if_neg hc] at h2 ⊢
      exact alookup_append_some _ _ _ _ h2
  have h4 : alookup (writeEntityFmBase p ex now ++ hidBlock ex ++ relsBlock p ex ++ emailBlock p ++ phoneBlock p ++ domainBlock p) "email".data = (if p.email = [] then none else some (p.email)) := by
    by_cases hc : p.email = []
    · rw [if_pos hc] at h3 ⊢
      rw [alookup_append_none _ _ _ h3]
      exact domainBlock_lookup_other p "email".data (by decide)
    · rw [if_neg hc] at h3 ⊢
      exact alookup_append_some _ _ _ _ h3
  exact h4

theorem writeEntityFm_lookup_phone (p : WriteEntityParams) (ex : ExistingData) (now : Str) :
    alookup (writeEntityFm p ex now) "phone".data
      = (if p.phone = [] then none else some (p.phone)) := by
  have hbase : alookup (writeEntityFmBase p ex now) "phone".data = none :=
    writeEntityFmBase_lookup p ex now "phone".data (by decide) (by decide) (by decide)
      (by decide) (by decide)
  rw [writeEntityFm]
  have h0 : alookup (writeEntityFmBase p ex now ++ hidBlock ex) "phone".data = none := by
    rw [alookup_append_none _ _ _ hbase]
    exact hidBlock_lookup_other ex "phone".data (by decide)
  have h1 : alookup (writeEntityFmBase p ex now ++ hidBlock ex ++ relsBlock p ex) "phone".data = none := by
    rw [alookup_append_none _ _ _ h0]
    exact relsBlock_lookup_other p ex "phone".data (by decide)
  have h2 : alookup (writeEntityFmBase p ex now ++ hidBlock ex ++ relsBlock p ex ++ emailBlock p) "phone".data = none := by
    rw [alookup_append_none _ _ _ h1]
    exact emailBlock_lookup_other p "phone".data (by decide)
  have h3 : alookup (writeEntityFmBase p ex now ++ hidBlock ex ++ relsBlock p ex ++ emailBlock p ++ phoneBlock p) "phone".data = (if p.phone = [] then none else some (p.phone)) := by
    rw [alookup_append_none _ _ _ h2]
    exact phoneBlock_lookup_self p
  have h4 : alookup (writeEntityFmBase p ex now ++ hidBlock ex ++ relsBlock p ex ++ emailBlock p ++ phoneBlock p ++ domainBlock p) "phone".data = (if p.phone = [] then none else some (p.phone)) := by
    by_cases hc : p.phone = []
    · rw [if_pos hc] at h3 ⊢
      rw [alookup_append_none _ _ _ h3]
      exact domainBlock_lookup_other p "phone".data (by decide)
    · rw [if_neg hc] at h3 ⊢
      exact alookup_append_some _ _ _ _ h3
  exact h4

theorem writeEntityFm_lookup_domain (p : WriteEntityParams) (ex : ExistingData) (now : Str) :
    alookup (writeEntityFm p ex now) "domain".data
      = (if p.domain = [] then none else some (p.domain)) := by
  have hbase : alookup (writeEntityFmBase p ex now) "domain".data = none :=
    writeEntityFmBase_lookup p ex now "domain".data (by decide) (by decide) (by decide)
      (by decide) (by decide)
  rw [writeEntityFm]
  have h0 : alookup (writeEntityFmBase p ex now ++ hidBlock ex) "domain".data = none := by
    rw [alookup_append_none _ _ _ hbase]
    exact hidBlock_lookup_other ex "domain".data (by decide)
  have h1 : alookup (writeEntityFmBase p ex now ++ hidBlock ex ++ relsBlock p ex) "domain".data = none := by
    rw [alookup_append_none _ _ _ h0]
    exact relsBlock_lookup_other p ex "domain".data (by decide)
  have h2 : alookup (writeEntityFmBase p ex now ++ hidBlock ex ++ relsBlock p ex ++ emailBlock p) "domain".data = none := by
    rw [alookup_append_none _ _ _ h1]
    exact emailBlock_lookup_other p "domain".data (by decide)
  have h3 : alookup (writeEntityFmBase p ex now ++ hidBlock ex ++ relsBlock p ex ++ emailBlock p ++ phoneBlock p) "domain".data = none := by
    rw [alookup_append_none _ _ _ h2]
    exact phoneBlock_lookup_other p "domain".data (by decide)
  have h4 : alookup (writeEntityFmBase p ex now ++ hidBlock ex ++ relsBlock p ex ++ emailBlock p ++ phoneBlock p ++ domainBlock p) "domain".data = (if p.domain = [] then none else some (p.domain)) := by
    rw [alookup_append_none _ _ _ h3]
    exact domainBlock_lookup_self p
  exact h4

/-! ## Remaining support lemmas for the claims -/

theorem isProcessed_iff_memKeys (s : NetworkState) (x : Str) :
    isProcessed s x = true ↔ x ∈ s.processedIds.map Prod.fst := by
  rw [isProcessed]
  constructor
  · intro h
    by_contra hn
    rw [alookup_eq_none_of_not_memKeys _ _ hn] at h
    simp at h
  · intro h
    simpa using alookup_isSome_of_memKeys _ _ h

theorem isProcessed_false_iff (s : NetworkState) (x : Str) :
    isProcessed s x = false ↔ x ∉ s.processedIds.map Prod.fst := by
  rw [← isProcessed_iff_memKeys]
  cases h : isProcessed s x <;> simp

theorem alookup_filter_nonempty {α : Type} (m : List (Str × α)) (key : Str)
    (hk : key ≠ []) :
    alookup (m.filter (fun p => p.1 ≠ [])) key = alookup m key := by
  induction m with
  | nil => rfl
  | cons p r ih =>
    by_cases hp : p.1 = []
    · rw [List.filter_cons, if_neg (by simp [hp])]
      rw [alookup_cons, if_neg (by rw [hp]; exact fun he => hk he.symm)]
      exact ih
    · rw [List.filter_cons, if_pos (by simp [hp])]
      by_cases hpk : p.1 = key
      · rw [alookup_cons, if_pos hpk, alookup_cons, if_pos hpk]
      · rw [alookup_cons, if_neg hpk, alookup_cons, if_neg hpk]
        exact ih

theorem mem_tail_upsert {α : Type} (fm : List (Str × α)) (k : Str) (v : α) (q : Str × α)
    (h : q ∈ (upsert fm k v).tail) : q ∈ fm.tail ∨ q = (k, v) := by
  cases fm with
  | nil =>
    rw [upsert] at h
    simp at h
  | cons p0 rest =>
    rw [upsert] at h
    split at h
    · exact Or.inl (by simpa using h)
    · simp only [List.tail_cons] at h
      rcases mem_upsert h with h2 | h2
      · exact Or.inl (by simpa using h2)
      · exact Or.inr h2

theorem scanLoop_len (st : NetworkState) (fs : Str → Str → Str) (bs : Nat) :
    ∀ (mems : List MemListing) (acc : List ScannedMemory), acc.length < bs →
    (scanLoop st fs bs mems acc).length ≤ bs := by
  intro mems
  induction mems with
  | nil =>
    intro acc h
    rw [scanLoop]
    omega
  | cons m rest ih =>
    intro acc h
    by_cases h1 : isProcessed st m.resourceId = true
    · rw [scanLoop, if_pos h1]; exact ih acc h
    · by_cases h2 : isGraphEntityFlag m.metadata = true
      · rw [scanLoop, if_neg h1, if_pos h2]; exact ih acc h
      · by_cases h3 : statusCompleted m.metadata = false
        · rw [scanLoop, if_neg h1, if_neg h2, if_pos h3]; exact ih acc h
        · rw [scanLoop, if_neg h1, if_neg h2, if_neg h3]
          show (if bs ≤ (acc ++ [mkScanned fs m]).length then acc ++ [mkScanned fs m]
              else scanLoop st fs bs rest (acc ++ [mkScanned fs m])).length ≤ bs
          by_cases hb : bs ≤ (acc ++ [mkScanned fs m]).length
          · rw [if_pos hb]
            simp only [List.length_append, List.length_cons, List.length_nil]
            omega
          · rw [if_neg hb]
            exact ih _ (by omega)

theorem scanLoop_mem (st : NetworkState) (fs : Str → Str → Str) (bs : Nat) :
    ∀ (mems : List MemListing) (acc : List ScannedMemory) (sc : ScannedMemory),
    sc ∈ scanLoop st fs bs mems acc →
    sc ∈ acc ∨ ∃ m, m ∈ mems ∧ sc = mkScanned fs m
      ∧ isProcessed st m.resourceId = false
      ∧ isGraphEntityFlag m.metadata = false
      ∧ statusCompleted m.metadata = true := by
  intro mems
  induction mems with
  | nil =>
    intro acc sc h
    rw [scanLoop] at h
    exact Or.inl h
  | cons m rest ih =>
    intro acc sc h
    have step : sc ∈ acc ++ [mkScanned fs m] ∨
        (sc ∈ acc ∨ ∃ m2, m2 ∈ rest ∧ sc = mkScanned fs m2
          ∧ isProcessed st m2.resourceId = false
          ∧ isGraphEntityFlag m2.metadata = false
          ∧ statusCompleted m2.metadata = true) →
        True := fun _ => trivial
    clear step
    by_cases h1 : isProcessed st m.resourceId = true
    · rw [scanLoop, if_pos h1] at h
      rcases ih acc sc h with h2 | ⟨m2, hm2, h3⟩
      · exact Or.inl h2
      · exact Or.inr ⟨m2, List.mem_cons_of_mem _ hm2, h3⟩
    · by_cases h2 : isGraphEntityFlag m.metadata = true
      · rw [scanLoop, if_neg h1, if_pos h2] at h
        rcases ih acc sc h with h3 | ⟨m2, hm2, h4⟩
        · exact Or.inl h3
        · exact Or.inr ⟨m2, List.mem_cons_of_mem _ hm2, h4⟩
      · by_cases h3 : statusCompleted m.metadata = false
        · rw [scanLoop, if_neg h1, if_neg h2, if_pos h3] at h
          rcases ih acc sc h with h4 | ⟨m2, hm2, h5⟩
          · exact Or.inl h4
          · exact Or.inr ⟨m2, List.mem_cons_of_mem _ hm2, h5⟩
        · rw [scanLoop, if_neg h1, if_neg h2, if_neg h3] at h
          have h' : sc ∈ (if bs ≤ (acc ++ [mkScanned fs m]).length then acc ++ [mkScanned fs m]
              else scanLoop st fs bs rest (acc ++ [mkScanned fs m])) := h
          have hm : sc ∈ acc ++ [mkScanned fs m] →
              sc ∈ acc ∨ ∃ m2, m2 ∈ m :: rest ∧ sc = mkScanned fs m2
                ∧ isProcessed st m2.resourceId = false
                ∧ isGraphEntityFlag m2.metadata = false
                ∧ statusCompleted m2.metadata = true := by
            intro hmem
            rcases List.mem_append.mp hmem with hmem | hmem
            · exact Or.inl hmem
            · refine Or.inr ⟨m, by simp, by simpa using hmem, ?_, ?_, ?_⟩
              · simpa using h1
              · simpa using h2
              · simpa using h3
          split at h'
          · exact hm h'
          · rcases ih _ sc h' with h4 | ⟨m2, hm2, h5⟩
            · exact hm h4
            · exact Or.inr ⟨m2, List.mem_cons_of_mem _ hm2, h5⟩

/-- One successful sync step, unfolded. -/
theorem syncMarkdownFile_ok (upload : UploadArgs → Except Str Str)
    (filePath content r1 : Str)
    (hok : upload ⟨(readMarkdownFile filePath content).content,
        (readMarkdownFile filePath content).title,
        (readMarkdownFile filePath content).hyperspellId, "openclaw".data⟩
      = Except.ok r1)
    (hbody : (readMarkdownFile filePath content).content ≠ []) :
    syncMarkdownFile upload filePath content
      = (⟨true, some r1, none⟩,
         (if (readMarkdownFile filePath content).hyperspellId = some r1 then content
          else updateFrontmatterId content r1),
         some ⟨(readMarkdownFile filePath content).content,
           (readMarkdownFile filePath content).title,
           (readMarkdownFile filePath content).hyperspellId, "openclaw".data⟩) := by
  rw [syncMarkdownFile]
  show (if (readMarkdownFile filePath content).content = [] then _ else _) = _
  rw [if_neg hbody]
  show (match upload (UploadArgs.mk (readMarkdownFile filePath content).content
        (readMarkdownFile filePath content).title
        (readMarkdownFile filePath content).hyperspellId "openclaw".data) with
    | Except.error e => (SyncResult.mk false none (some e), content,
        some (UploadArgs.mk (readMarkdownFile filePath content).content
          (readMarkdownFile filePath content).title
          (readMarkdownFile filePath content).hyperspellId "openclaw".data))
    | Except.ok rid => (SyncResult.mk true (some rid) none,
        if (readMarkdownFile filePath content).hyperspellId = some rid then content
        else updateFrontmatterId content rid,
        some (UploadArgs.mk (readMarkdownFile filePath content).content
          (readMarkdownFile filePath content).title
          (readMarkdownFile filePath content).hyperspellId "openclaw".data))) = _
  rw [hok]

theorem updateFrontmatterId_eq (content : Str) (hyperspellId : Str) :
    updateFrontmatterId content hyperspellId
      = serializeFrontmatter (upsert (parseFrontmatter content).1 "hyperspell_id".data hyperspellId)
          ++ (parseFrontmatter content).2 := rfl

/-! ## The claims -/

/-- C1: rewriting an existing entity file merges, never overwrites: the
written `source_memories` value is the JSON encoding of the per-source-key
set union of the stored mapping and the call's `sourceMemories` (and decodes
back to exactly that merge); the `relationships` value (absent meaning empty)
decodes to the set union of the stored list and the call's `relationships`;
and every identifier or edge present before the write is still present after
it. -/
theorem C1_source_memories_and_relationships_union (p : WriteEntityParams) (c : Str)
    (now : Str) (hnd : (p.sourceMemories.map Prod.fst).Nodup) :
    alookup (writeEntityFm p (extractExisting (some c)) now) "source_memories".data
        = some (encodeJSM (mergeSources (extractExisting (some c)).sourceMemories
            p.sourceMemories))
    ∧ jsonParseSM (encodeJSM (mergeSources (extractExisting (some c)).sourceMemories
          p.sourceMemories))
        = some (mergeSources (extractExisting (some c)).sourceMemories p.sourceMemories)
    ∧ (∀ src id, smHas (mergeSources (extractExisting (some c)).sourceMemories
          p.sourceMemories) src id
        ↔ smHas (extractExisting (some c)).sourceMemories src id
          ∨ smHas p.sourceMemories src id)
    ∧ (match alookup (writeEntityFm p (extractExisting (some c)) now) "relationships".data with
        | none => some ([] : List Str)
        | some v => jsonParseArr v)
        = some (mergeRels (extractExisting (some c)).relationships p.relationships)
    ∧ (∀ e, e ∈ mergeRels (extractExisting (some c)).relationships p.relationships
        ↔ e ∈ (extractExisting (some c)).relationships ∨ e ∈ p.relationships)
    ∧ (∀ src id, smHas (extractExisting (some c)).sourceMemories src id →
        smHas (mergeSources (extractExisting (some c)).sourceMemories p.sourceMemories) src id)
    ∧ (∀ e ∈ (extractExisting (some c)).relationships,
        e ∈ mergeRels (extractExisting (some c)).relationships p.relationships) := by
  refine ⟨writeEntityFm_lookup_sm p _ now, ?_, ?_, ?_, ?_, ?_, ?_⟩
  · exact jsonParseSM_enc _
      (mergeSources_nodup p.sourceMemories _ (extractExisting_sm_nodup (some c)))
  · intro src id
    exact mergeSources_mem p.sourceMemories _ src id hnd
  · rw [writeEntityFm_lookup_rels]
    by_cases hmr : mergeRels (extractExisting (some c)).relationships p.relationships = []
    · rw [if_pos hmr]
      show some ([] : List Str)
          = some (mergeRels (extractExisting (some c)).relationships p.relationships)
      rw [hmr]
    · rw [if_neg hmr]
      show jsonParseArr
          (encodeJArr (mergeRels (extractExisting (some c)).relationships p.relationships))
          = some (mergeRels (extractExisting (some c)).relationships p.relationships)
      exact jsonParseArr_enc _
  · intro e
    exact mergeRels_mem _ _ e
  · intro src id h
    exact (mergeSources_mem p.sourceMemories _ src id hnd).mpr (Or.inl h)
  · intro e he
    exact (mergeRels_mem _ _ e).mpr (Or.inl he)

def c1p1 : WriteEntityParams :=
  ⟨EntityType.people, "alice-chen".data, "Alice Chen".data, "desc".data, [],
    [("slack".data, ["A".data])], [], [], []⟩

def c1p2 : WriteEntityParams :=
  ⟨EntityType.people, "alice-chen".data, "Alice Chen".data, "desc2".data, [],
    [("slack".data, ["B".data]), ("google_mail".data, ["C".data])], [], [], []⟩

def c1File : Str := writeEntityContent c1p1 none "2026-01-01T00:00:00.000Z".data

theorem C1_union_witness :
    (c1p2.sourceMemories.map Prod.fst).Nodup
    ∧ mergeSources (extractExisting (some c1File)).sourceMemories c1p2.sourceMemories
        = [("slack".data, ["A".data, "B".data]), ("google_mail".data, ["C".data])]
    ∧ alookup (writeEntityFm c1p2 (extractExisting (some c1File)) "2026-01-02T00:00:00.000Z".data)
        "source_memories".data
        = some (encodeJSM (mergeSources (extractExisting (some c1File)).sourceMemories
            c1p2.sourceMemories)) :=
  ⟨by decide, by decide,
   (C1_source_memories_and_relationships_union c1p2 c1File "2026-01-02T00:00:00.000Z".data
     (by decide)).1⟩

/-- C2: when the existing file's frontmatter carries a non-empty
`hyperspell_id`, the rewritten frontmatter carries the same id verbatim, for
every choice of the new call's parameters. -/
theorem C2_hyperspell_id_preserved (p : WriteEntityParams) (c : Str) (now : Str)
    (h : (extractExisting (some c)).hyperspellId ≠ []) :
    alookup (writeEntityFm p (extractExisting (some c)) now) "hyperspell_id".data
      = some (extractExisting (some c)).hyperspellId := by
  rw [writeEntityFm_lookup_hid, if_neg h]

def c2p : WriteEntityParams :=
  ⟨EntityType.people, "alice".data, "Alice".data, "d".data, [], [],
    "a@b.example".data, [], []⟩

def c2File : Str := "---\nhyperspell_id: H1\n---\nBody".data

theorem C2_hyperspell_id_preserved_witness :
    (extractExisting (some c2File)).hyperspellId ≠ []
    ∧ alookup (writeEntityFm c2p (extractExisting (some c2File)) "T".data)
        "hyperspell_id".data = some (extractExisting (some c2File)).hyperspellId :=
  ⟨by decide, C2_hyperspell_id_preserved c2p c2File "T".data (by decide)⟩

def c3mem : MemListing :=
  ⟨"r1".data, "slack".data, none, some [("status".data, MVal.s "completed".data)]⟩

/-- C3 counterexample: with `batchSize = 0` the push-then-check loop still
returns one record, so the claimed bound `length ≤ batchSize` fails for
`batchSize = 0`. -/
theorem C3_batch_zero_counterexample :
    (scanMemories [c3mem] freshState (fun _ _ => []) 0).length = 1
    ∧ ¬ ((scanMemories [c3mem] freshState (fun _ _ => []) 0).length ≤ 0) := by
  decide

/-- C3 (amended to `batchSize ≥ 1`): the scan returns at most `batchSize`
records, and every returned record comes from an input record that is not in
the ledger, is not flagged as a graph entity (boolean `true` or string
`"true"`), and has status exactly `"completed"`. -/
theorem C3_scan_bounded_filtered (mems : List MemListing) (st : NetworkState)
    (fetchSummary : Str → Str → Str) (batchSize : Nat) (hb : 1 ≤ batchSize) :
    (scanMemories mems st fetchSummary batchSize).length ≤ batchSize
    ∧ ∀ sc ∈ scanMemories mems st fetchSummary batchSize,
        ∃ m, m ∈ mems ∧ sc = mkScanned fetchSummary m
          ∧ isProcessed st m.resourceId = false
          ∧ isGraphEntityFlag m.metadata = false
          ∧ statusCompleted m.metadata = true
          ∧ sc.resourceId = m.resourceId := by
  constructor
  · exact scanLoop_len st fetchSummary batchSize mems []
      (by simp only [List.length_nil]; omega)
  · intro sc hsc
    rcases scanLoop_mem st fetchSummary batchSize mems [] sc hsc with h | ⟨m, hm, hsc2, h3, h4, h5⟩
    · simp at h
    · exact ⟨m, hm, hsc2, h3, h4, h5, by rw [hsc2]; rfl⟩

theorem C3_scan_bounded_filtered_witness :
    1 ≤ 1 ∧ (scanMemories [c3mem] freshState (fun _ _ => []) 1).length ≤ 1 :=
  ⟨by decide,
   (C3_scan_bounded_filtered [c3mem] freshState (fun _ _ => []) 1 (by decide)).1⟩

def c4bad : Str := "---\na: 1\n ---x: 2\n---\nbody".data

/-- C4 counterexample: this file has a non-empty body and no `hyperspell_id`,
and the upload succeeds with id `r1` — yet after the first sync the reparsed
frontmatter still has no `hyperspell_id` (the rewritten second key ` ---x`
trims to a key starting with `---`, so the reparse terminates the frontmatter
block early), and the second sync passes no `resourceId`, creating a
duplicate remote record instead of updating. -/
theorem C4_dash_key_counterexample :
    (readMarkdownFile "f.md".data c4bad).hyperspellId = none
    ∧ (readMarkdownFile "f.md".data c4bad).content ≠ []
    ∧ alookup (parseFrontmatter
        ((syncMarkdownFile (fun _ => Except.ok "r1".data) "f.md".data c4bad).2.1)).1
        "hyperspell_id".data = none
    ∧ ((syncMarkdownFile (fun _ => Except.ok "r1".data) "f.md".data
          ((syncMarkdownFile (fun _ => Except.ok "r1".data) "f.md".data c4bad).2.1)).2.2).map
        UploadArgs.resourceId = some none := by
  decide

/-- C4 (amended): for a file with a non-empty body and no stored
`hyperspell_id`, if the returned id `r1` is a non-empty single-line trimmed
string and no frontmatter key after the first begins with `---`, then one
successful sync stores `hyperspell_id: r1`, and a second sync of the
resulting file passes `r1` as the upload's `resourceId` and leaves the file
unchanged. -/
theorem C4_sync_idempotent (filePath content r1 : Str)
    (hbody : (readMarkdownFile filePath content).content ≠ [])
    (hid : (readMarkdownFile filePath content).hyperspellId = none)
    (hr1 : r1 ≠ []) (hr1nl : '\n' ∉ r1) (hr1tr : trimStr r1 = r1)
    (htail : ∀ p ∈ (parseFrontmatter content).1.tail,
      hasPre ('-' :: '-' :: '-' :: []) p.1 = false) :
    (syncMarkdownFile (fun _ => Except.ok r1) filePath content).1.success = true
    ∧ alookup (parseFrontmatter
        ((syncMarkdownFile (fun _ => Except.ok r1) filePath content).2.1)).1
        "hyperspell_id".data = some r1
    ∧ ((syncMarkdownFile (fun _ => Except.ok r1) filePath
          ((syncMarkdownFile (fun _ => Except.ok r1) filePath content).2.1)).2.2).map
        UploadArgs.resourceId = some (some r1)
    ∧ (syncMarkdownFile (fun _ => Except.ok r1) filePath
          ((syncMarkdownFile (fun _ => Except.ok r1) filePath content).2.1)).2.1
        = (syncMarkdownFile (fun _ => Except.ok r1) filePath content).2.1 := by
  have hs1 := syncMarkdownFile_ok (fun _ => Except.ok r1) filePath content r1 rfl hbody
  have h21 : (syncMarkdownFile (fun _ => Except.ok r1) filePath content).2.1
      = updateFrontmatterId content r1 := by
    rw [hs1]
    show (if (readMarkdownFile filePath content).hyperspellId = some r1 then content
        else updateFrontmatterId content r1) = updateFrontmatterId content r1
    rw [hid]
    simp
  have hclean0 := (parseFrontmatter_clean content).1
  have hnd0 := (parseFrontmatter_clean content).2
  have hclean' : ∀ p ∈ upsert (parseFrontmatter content).1 "hyperspell_id".data r1,
      '\n' ∉ p.1 ∧ ':' ∉ p.1 ∧ trimStr p.1 = p.1 ∧ '\n' ∉ p.2 ∧ trimStr p.2 = p.2 := by
    intro p hp
    rcases mem_upsert hp with h | h
    · exact hclean0 p h
    · subst h
      exact ⟨(by decide : '\n' ∉ "hyperspell_id".data),
        (by decide : ':' ∉ "hyperspell_id".data),
        (by decide : trimStr "hyperspell_id".data = "hyperspell_id".data), hr1nl, hr1tr⟩
  have hnd' : ((upsert (parseFrontmatter content).1 "hyperspell_id".data r1).map
      Prod.fst).Nodup := upsert_keys_nodup _ _ _ hnd0
  have htail' : ∀ p ∈ (upsert (parseFrontmatter content).1 "hyperspell_id".data r1).tail,
      hasPre ('-' :: '-' :: '-' :: []) p.1 = false := by
    intro p hp
    rcases mem_tail_upsert _ _ _ p hp with h | h
    · exact htail p h
    · subst h
      exact (by decide : hasPre ('-' :: '-' :: '-' :: []) "hyperspell_id".data = false)
  have hrt : parseFrontmatter (serializeFrontmatter
        (upsert (parseFrontmatter content).1 "hyperspell_id".data r1)
        ++ (parseFrontmatter content).2)
      = ((upsert (parseFrontmatter content).1 "hyperspell_id".data r1).filter
          (fun p => p.1 ≠ []), (parseFrontmatter content).2) :=
    parseFrontmatter_serialize _ _ hclean' hnd' htail'
  have hlk : alookup (parseFrontmatter (updateFrontmatterId content r1)).1
      "hyperspell_id".data = some r1 := by
    rw [updateFrontmatterId_eq, hrt]
    show alookup ((upsert (parseFrontmatter content).1 "hyperspell_id".data r1).filter
        (fun p => p.1 ≠ [])) "hyperspell_id".data = some r1
    rw [alookup_filter_nonempty _ _ (by decide), alookup_upsert, if_pos rfl]
  have hread2_id : (readMarkdownFile filePath (updateFrontmatterId content r1)).hyperspellId
      = some r1 := by
    show (match alookup (parseFrontmatter (updateFrontmatterId content r1)).1
        "hyperspell_id".data with
      | some v => if v = [] then none else some v
      | none => none) = some r1
    rw [hlk]
    show (if r1 = [] then none else some r1) = some r1
    rw [if_neg hr1]
  have hread2_content : (readMarkdownFile filePath (updateFrontmatterId content r1)).content
      = (readMarkdownFile filePath content).content := by
    show trimStr (parseFrontmatter (updateFrontmatterId content r1)).2
        = trimStr (parseFrontmatter content).2
    rw [updateFrontmatterId_eq, hrt]
  have hbody2 : (readMarkdownFile filePath (updateFrontmatterId content r1)).content ≠ [] := by
    rw [hread2_content]
    exact hbody
  have hs2 := syncMarkdownFile_ok (fun _ => Except.ok r1) filePath
    (updateFrontmatterId content r1) r1 rfl hbody2
  refine ⟨?_, ?_, ?_, ?_⟩
  · rw [hs1]
  · rw [h21]
    exact hlk
  · rw [h21, hs2]
    show some ((readMarkdownFile filePath (updateFrontmatterId content r1)).hyperspellId)
        = some (some r1)
    rw [hread2_id]
  · rw [h21, hs2]
    show (if (readMarkdownFile filePath (updateFrontmatterId content r1)).hyperspellId
          = some r1 then updateFrontmatterId content r1
        else updateFrontmatterId (updateFrontmatterId content r1) r1)
        = updateFrontmatterId content r1
    rw [hread2_id, if_pos rfl]

theorem C4_sync_idempotent_witness :
    (readMarkdownFile "memory/note.md".data "---\ntitle: Note\n---\nBody here".data).hyperspellId
      = none
    ∧ alookup (parseFrontmatter ((syncMarkdownFile (fun _ => Except.ok "r1".data)
        "memory/note.md".data "---\ntitle: Note\n---\nBody here".data).2.1)).1
        "hyperspell_id".data = some "r1".data :=
  ⟨by decide,
   (C4_sync_idempotent "memory/note.md".data "---\ntitle: Note\n---\nBody here".data
     "r1".data (by decide) (by decide) (by decide) (by decide) (by decide) (by decide)).2.1⟩

/-- C5 (code bug): `getMemoryFiles` lists only the memory directory's own
entries and keeps names ending in `.md`, so the entity subdirectories
(`people`, `projects`, `organizations`, `topics`) are filtered out and the
files inside them are never visited: a workspace whose memory directory holds
only the `people` subdirectory yields no sync attempts at all. -/
theorem C5_entity_files_not_synced :
    getMemoryFiles "ws".data
        (MemoryDirState.entries ["people".data, "projects".data, "organizations".data,
          "topics".data, ".network-state.json".data, "note.md".data])
      = [pathJoin (pathJoin "ws".data "memory".data) "note.md".data]
    ∧ getMemoryFiles "ws".data (MemoryDirState.entries ["people".data]) = []
    ∧ syncAllMemoryFiles (fun _ => Except.ok "r1".data) "ws".data
        (MemoryDirState.entries ["people".data])
        (fun _ => "---\ntitle: Alice Chen\n---\nBody".data)
      = ⟨0, 0, []⟩ := by
  decide

def c6p (t : EntityType) : WriteEntityParams :=
  ⟨t, "alice-chen".data, "Alice Chen".data, "desc".data, [], [], [], [], []⟩

/-- C6 (code bug): the `type` field is the directory name minus its last
character, which gives the singular for `projects`, `organizations` and
`topics` but `peopl` (not `person`) for `people`; the other four always-written
fields (`title`, `graph_entity`, `source_memories`, `last_extracted`) are as
claimed. -/
theorem C6_type_field_not_singular :
    alookup (writeEntityFm (c6p EntityType.people) emptyExisting "T".data) "type".data
      = some "peopl".data
    ∧ "peopl".data ≠ "person".data
    ∧ alookup (writeEntityFm (c6p EntityType.projects) emptyExisting "T".data) "type".data
      = some "project".data
    ∧ alookup (writeEntityFm (c6p EntityType.organizations) emptyExisting "T".data) "type".data
      = some "organization".data
    ∧ alookup (writeEntityFm (c6p EntityType.topics) emptyExisting "T".data) "type".data
      = some "topic".data
    ∧ alookup (writeEntityFm (c6p EntityType.people) emptyExisting "T".data) "title".data
      = some "Alice Chen".data
    ∧ alookup (writeEntityFm (c6p EntityType.people) emptyExisting "T".data) "graph_entity".data
      = some "true".data
    ∧ alookup (writeEntityFm (c6p EntityType.people) emptyExisting "T".data)
        "source_memories".data
      = some (encodeJSM (mergeSources emptyExisting.sourceMemories
          (c6p EntityType.people).sourceMemories))
    ∧ alookup (writeEntityFm (c6p EntityType.people) emptyExisting "T".data)
        "last_extracted".data = some "T".data := by
  decide

/-- C7: `markProcessed` appends exactly the ids not already present, each
stamped with the current time, and returns their count; already-present ids
are untouched and uncounted; afterwards an id is processed iff it was
processed before or is in the list; and a second call counts exactly the ids
still absent after the first. -/
theorem C7_markProcessed_correct (s : NetworkState) (ids : List Str) (now : Str) :
    (markProcessed s ids now).1.processedIds
        = s.processedIds
          ++ (freshIds (s.processedIds.map Prod.fst) ids).map (fun id => (id, now))
    ∧ (markProcessed s ids now).2 = (freshIds (s.processedIds.map Prod.fst) ids).length
    ∧ (∀ x, x ∈ freshIds (s.processedIds.map Prod.fst) ids
        ↔ x ∈ ids ∧ isProcessed s x = false)
    ∧ (∀ x, isProcessed (markProcessed s ids now).1 x = true
        ↔ (isProcessed s x = true ∨ x ∈ ids))
    ∧ (∀ ids2 now2, (markProcessed (markProcessed s ids now).1 ids2 now2).2
        = (freshIds ((markProcessed s ids now).1.processedIds.map Prod.fst) ids2).length) := by
  have h1 : (markProcessed s ids now).1.processedIds
      = s.processedIds
        ++ (freshIds (s.processedIds.map Prod.fst) ids).map (fun id => (id, now)) := by
    rw [markProcessed_spec]
  refine ⟨h1, ?_, ?_, ?_, ?_⟩
  · rw [markProcessed_spec]
  · intro x
    rw [mem_freshIds, isProcessed_false_iff]
  · intro x
    have hkeys : ((markProcessed s ids now).1.processedIds.map Prod.fst)
        = s.processedIds.map Prod.fst ++ freshIds (s.processedIds.map Prod.fst) ids := by
      rw [h1]
      simp only [List.map_append, List.map_map]
      rw [List.append_cancel_left_eq]
      exact List.map_id'' (fun a => rfl) _
    rw [isProcessed_iff_memKeys, hkeys, List.mem_append, mem_freshIds,
      isProcessed_iff_memKeys]
    constructor
    · rintro (h | ⟨h, _⟩)
      · exact Or.inl h
      · exact Or.inr h
    · rintro (h | h)
      · exact Or.inl h
      · by_cases hk : x ∈ s.processedIds.map Prod.fst
        · exact Or.inl hk
        · exact Or.inr ⟨h, hk⟩
  · intro ids2 now2
    rw [markProcessed_spec ((markProcessed s ids now).1) ids2 now2]

/-- C8 counterexample: an absent ledger file falls through the `existsSync`
guard silently — the fresh ledger is returned with no warning logged, contrary
to the claim that all three failure cases log a warning. -/
theorem C8_absent_no_warning_counterexample :
    loadLedger LoadInput.absent = (freshState, false) := rfl

/-- C8 (amended): in all four non-nominal cases (file absent, read failure,
JSON parse failure, version mismatch) `load` returns the fresh empty ledger —
`processedIds` empty, `lastScanAt` null, current version — and never fails;
a warning is logged in exactly the cases other than an absent file. -/
theorem C8_load_fresh_and_warn (inp : LoadInput)
    (h : inp = LoadInput.absent ∨ inp = LoadInput.readError ∨ inp = LoadInput.badJson
      ∨ ∃ p, inp = LoadInput.parsed p ∧ p.version ≠ some STATE_VERSION) :
    (loadLedger inp).1 = freshState
    ∧ freshState.processedIds = []
    ∧ freshState.lastScanAt = none
    ∧ freshState.version = STATE_VERSION
    ∧ ((loadLedger inp).2 = true ↔ inp ≠ LoadInput.absent) := by
  rcases h with rfl | rfl | rfl | ⟨p, rfl, hv⟩
  · exact ⟨rfl, rfl, rfl, rfl, by simp [loadLedger]⟩
  · exact ⟨rfl, rfl, rfl, rfl, by simp [loadLedger]⟩
  · exact ⟨rfl, rfl, rfl, rfl, by simp [loadLedger]⟩
  · refine ⟨?_, rfl, rfl, rfl, ?_⟩
    · rw [loadLedger, if_neg hv]
    · rw [loadLedger, if_neg hv]
      simp

theorem C8_load_fresh_and_warn_witness :
    (LoadInput.badJson = LoadInput.absent ∨ LoadInput.badJson = LoadInput.readError
      ∨ LoadInput.badJson = LoadInput.badJson
      ∨ ∃ p, LoadInput.badJson = LoadInput.parsed p ∧ p.version ≠ some STATE_VERSION)
    ∧ (loadLedger LoadInput.badJson).1 = freshState
    ∧ ((loadLedger LoadInput.badJson).2 = true ↔ LoadInput.badJson ≠ LoadInput.absent) :=
  ⟨Or.inr (Or.inr (Or.inl rfl)),
   (C8_load_fresh_and_warn LoadInput.badJson (Or.inr (Or.inr (Or.inl rfl)))).1,
   (C8_load_fresh_and_warn LoadInput.badJson (Or.inr (Or.inr (Or.inl rfl)))).2.2.2.2⟩

/-- C9: `slugify` is deterministic (a pure function of its input) and
idempotent, and maps the two spec examples as claimed. -/
theorem C9_slugify_idempotent_and_examples :
    (∀ x : Str, slugify (slugify x) = slugify x)
    ∧ slugify "Alice Chen".data = "alice-chen".data
    ∧ slugify "  Multi   Space--Name  ".data = "multi-space-name".data :=
  ⟨slugify_idem, by decide, by decide⟩

def c10p : WriteEntityParams :=
  ⟨EntityType.people, "alice".data, "Alice".data, "desc".data, [], [], [], [], []⟩

def c10pB : WriteEntityParams :=
  ⟨EntityType.people, "alice".data, "Alice".data, "old desc".data,
    ["knows:people/bob".data], [], "x@y.example".data, [], []⟩

def c10cA : Str := writeEntityContent c10p none "T0".data

def c10cB : Str := writeEntityContent c10pB none "T0".data

/-- C10 counterexample: with identical call parameters, two existing files
that differ only in their stored `relationships` yield different rewritten
files, and the difference lies in the body (its `## Relationships` section is
rendered from the merged list, which includes the stored edges) — so the body
is not rebuilt solely from the new call's parameters. -/
theorem C10_body_depends_on_existing_counterexample :
    writeEntityContent c10p (some c10cA) "T1".data
      ≠ writeEntityContent c10p (some c10cB) "T1".data
    ∧ joinNl (writeEntityBodyParts c10p
        (mergeRels (extractExisting (some c10cB)).relationships c10p.relationships))
      ≠ joinNl (writeEntityBodyParts c10p
        (mergeRels (extractExisting (some c10cA)).relationships c10p.relationships)) := by
  decide

/-- C10 (amended): `writeEntity` reads the existing file only through the
three extracted fields (`hyperspell_id`, `source_memories`, `relationships`);
`title` always comes from the new call's `name`; a call that omits `email`,
`phone` or `domain` writes no such frontmatter field regardless of what the
old file stored (and a given one is written verbatim); and the body is built
from the new call's parameters plus the merged relationships list. -/
theorem C10_frame_and_drop (p : WriteEntityParams) (now : Str) :
    (∀ c1 c2 : Option Str, extractExisting c1 = extractExisting c2 →
        writeEntityContent p c1 now = writeEntityContent p c2 now)
    ∧ (∀ ex : ExistingData, alookup (writeEntityFm p ex now) "title".data = some p.name)
    ∧ (∀ ex : ExistingData, p.email = [] →
        alookup (writeEntityFm p ex now) "email".data = none)
    ∧ (∀ ex : ExistingData, p.phone = [] →
        alookup (writeEntityFm p ex now) "phone".data = none)
    ∧ (∀ ex : ExistingData, p.domain = [] →
        alookup (writeEntityFm p ex now) "domain".data = none)
    ∧ (∀ ex : ExistingData, p.email ≠ [] →
        alookup (writeEntityFm p ex now) "email".data = some p.email)
    ∧ (∀ ex : ExistingData, writeEntityContentOf p ex now
        = serializeFrontmatter (writeEntityFm p ex now)
          ++ joinNl (writeEntityBodyParts p (mergeRels ex.relationships p.relationships))
          ++ ['\n']) := by
  refine ⟨?_, ?_, ?_, ?_, ?_, ?_, ?_⟩
  · intro c1 c2 h
    rw [writeEntityContent, writeEntityContent, h]
  · intro ex
    exact writeEntityFm_lookup_title p ex now
  · intro ex h
    rw [writeEntityFm_lookup_email, if_pos h]
  · intro ex h
    rw [writeEntityFm_lookup_phone, if_pos h]
  · intro ex h
    rw [writeEntityFm_lookup_domain, if_pos h]
  · intro ex h
    rw [writeEntityFm_lookup_email, if_neg h]
  · intro ex
    rfl

theorem C10_frame_and_drop_witness :
    c10p.email = []
    ∧ alookup (writeEntityFm c10p (extractExisting (some c10cB)) "T1".data) "email".data
      = none :=
  ⟨by decide,
   (C10_frame_and_drop c10p "T1".data).2.2.1 (extractExisting (some c10cB)) (by decide)⟩

end Openclaw
